import Mathlib

/-!
# BoggleSolver.cpp: a shallow embedding and its verification

The C++ program `Boggle Solver 2.0/BoggleSolver.cpp` is translated class by class.

* `std::string` is `List Char`; a `char` is a Lean `Char` (the program is meant for ASCII text).
* A `Trie_node*` is a value of `Trie_node`: `NULL` or a node.  The in-place pointer updates of
  `Addword` rebuild the path from the root.
* A function returns `Option`: `none` stands for an execution that leaves defined behaviour
  (a table index outside its bounds, a dereferenced `NULL`), and, for the recursive search only,
  for an exhausted recursion budget.
* A file is given by its text, `none` when it cannot be opened; `std::getline` works on an explicit
  stream state (unread characters, `eofbit`, `failbit`).
* `int` values are `Int`/`Nat`; lengths and cell counts are far below `2^31` on every input whose
  tables can be allocated, so no wrap-around is modelled.
-/

set_option autoImplicit false
set_option linter.unusedVariables false

namespace Boggle

/-! ## Library functions of `<cctype>`, `<string>`, `<algorithm>` (C locale) -/

/-- The function `tolower` of `<cctype>`: `A`..`Z` go to `a`..`z`, every other character is kept. -/
def tolower (c : Char) : Char :=
  if 65 ≤ c.toNat ∧ c.toNat ≤ 90 then Char.ofNat (c.toNat + 32) else c

/-- The function `isalpha` of `<cctype>`: `A`..`Z` or `a`..`z`. -/
def isalpha (c : Char) : Bool :=
  (decide (65 ≤ c.toNat) && decide (c.toNat ≤ 90)) || (decide (97 ≤ c.toNat) && decide (c.toNat ≤ 122))

/-- The function `isspace` of `<cctype>`: space, `\t`, `\n`, `\v`, `\f`, `\r`. -/
def isspace (c : Char) : Bool :=
  decide (c.toNat = 32) || (decide (9 ≤ c.toNat) && decide (c.toNat ≤ 13))

/-! ## class Trie_node -/

/-- A value of type `Trie_node*`: `NULL`, or the address of a node with its `letter`, its `isWord`
flag and its table `children[26]`. -/
inductive Trie_node where
  | NULL : Trie_node
  | node (letter : Char) (isWord : Bool) (children : Fin 26 → Trie_node) : Trie_node

namespace Trie_node

/-- The test `p == NULL`. -/
def isNull : Trie_node → Bool
  | NULL => true
  | node _ _ _ => false

/-- The read `p->isWord`; `none` when `p` is `NULL`. -/
def getIsWord : Trie_node → Option Bool
  | NULL => none
  | node _ w _ => some w

/-- The read `p->children[i]`; `none` when `p` is `NULL` or `i` is outside `0..25`. -/
def getChild : Trie_node → Int → Option Trie_node
  | NULL, _ => none
  | node _ _ ch, i => if h : 0 ≤ i ∧ i < 26 then some (ch ⟨i.toNat, by omega⟩) else none

/-- The write `p->children[i] = q`; `none` when `p` is `NULL` or `i` is outside `0..25`. -/
def setChild : Trie_node → Int → Trie_node → Option Trie_node
  | NULL, _, _ => none
  | node l w ch, i, q =>
    if 0 ≤ i ∧ i < 26 then some (node l w (fun k => if (k.val : Int) = i then q else ch k)) else none

/-- Returns true if this node has at least 1 child node (lines 35-42). -/
def hasChildren : Trie_node → Option Bool
  | NULL => none
  | node _ _ ch => some ((List.finRange 26).any (fun i => !(ch i).isNull))

end Trie_node

/-! ## class Trie -/

/-- The class `Trie`: its only member is `rootNode`. -/
structure Trie where
  rootNode : Trie_node

namespace Trie

/-- Get the alphabetical index for the input character (lines 60-66). -/
def GetAlphabeticalIndex (c : Char) : Int :=
  if c = '0' then 26 else (c.toNat : Int) - ('a'.toNat : Int)

/-- Creates a new Trie node: all 26 children are `NULL` (lines 84-94). -/
def CreateNode (c : Char) (isWord : Bool) : Trie_node :=
  Trie_node.node c isWord (fun _ => Trie_node.NULL)

/-- Adds a new node to the Trie Structure (lines 71-77): the parent after the write, and the new
node that the function returns. -/
def AddNode (parent : Trie_node) (c : Char) (isWord : Bool) : Option (Trie_node × Trie_node) := do
  let newNode := CreateNode c isWord
  let parent1 ← parent.setChild (GetAlphabeticalIndex c) newNode
  pure (parent1, newNode)

/-- The loop of `GetLeafNode` (lines 104-113) on the rest of the word, from `currentNode`. -/
def GetLeafNode.loop : List Char → Trie_node → Option Trie_node
  | [], currentNode => some currentNode
  | c :: rest, currentNode => do
    let letter := tolower c
    let childNode ← currentNode.getChild (GetAlphabeticalIndex letter)
    if childNode.isNull then pure Trie_node.NULL
    else GetLeafNode.loop rest childNode

/-- Attempts to find the leaf node of a word in the Trie; `NULL` if the word is not in the Trie
(lines 100-115). -/
def GetLeafNode (t : Trie) (word : List Char) : Option Trie_node :=
  GetLeafNode.loop word t.rootNode

/-- The constructor `Trie()` (lines 119-121). -/
def new : Trie := ⟨CreateNode (Char.ofNat 0) false⟩

/-- The loop of `Addword` (lines 151-164) on the rest of the word at position `i`: the node
`currentNode` after the loop has run below it. -/
def Addword.loop (lastLetter : Int) : List Char → Int → Trie_node → Option Trie_node
  | [], _, currentNode => some currentNode
  | c :: rest, i, currentNode => do
    let letter := tolower c
    let childNode ← currentNode.getChild (GetAlphabeticalIndex letter)
    if childNode.isNull then
      let (parent1, newNode) ← AddNode currentNode letter (decide (i = lastLetter))
      let below ← Addword.loop lastLetter rest (i + 1) newNode
      parent1.setChild (GetAlphabeticalIndex letter) below
    else
      let below ← Addword.loop lastLetter rest (i + 1) childNode
      currentNode.setChild (GetAlphabeticalIndex letter) below

/-- Adds a word to the trie (lines 146-165). -/
def Addword (t : Trie) (word : List Char) : Option Trie := do
  let lastLetter : Int := (word.length : Int) - 1
  let root ← Addword.loop lastLetter word 0 t.rootNode
  pure ⟨root⟩

/-- Checks if the current word is a substring of a larger word (lines 171-180). -/
def isSubstring (t : Trie) (word : List Char) : Option Bool := do
  let LeafNode ← t.GetLeafNode word
  if LeafNode.isNull then pure false
  else LeafNode.hasChildren

/-- Attempts to find the word in the Trie Structure (lines 185-197). -/
def FindWord (t : Trie) (word : List Char) : Option Bool := do
  let LeafNode ← t.GetLeafNode word
  if !LeafNode.isNull then
    let w ← LeafNode.getIsWord
    if w then pure true else pure false
  else pure false

/-- The calls `Addword(w)` for the words of a list, in order. -/
def AddWords (t : Trie) (words : List (List Char)) : Option Trie :=
  words.foldlM Addword t

end Trie

/-! ## Text files: `std::ifstream` and `std::getline` -/

/-- An open `std::ifstream`: the characters not yet read and the state bits `eofbit`, `failbit`. -/
structure ifstream where
  buf : List Char
  eofbit : Bool
  failbit : Bool

/-- Opens a stream on the text of a file. -/
def ifstream.open (text : List Char) : ifstream := ⟨text, false, false⟩

/-- The extraction step of `std::getline`: the characters up to the first newline (which is
consumed and not stored), whether the end of the file was reached first, and what is left unread. -/
def getline.extract : List Char → List Char × Bool × List Char
  | [] => ([], true, [])
  | c :: rest =>
    if c = '\n' then ([], false, rest)
    else
      let r := getline.extract rest
      (c :: r.1, r.2.1, r.2.2)

/-- The call `std::getline(stream, line)`: the stream and the string `line` after the call.  When
the stream is not good the sentry fails: `failbit` is set and `line` is left as it was.  Otherwise
`line` is erased and filled; reaching the end of the file sets `eofbit`, and also `failbit` when
nothing at all was extracted. -/
def getline (s : ifstream) (line : List Char) : ifstream × List Char :=
  if s.eofbit || s.failbit then (⟨s.buf, s.eofbit, true⟩, line)
  else
    let r := getline.extract s.buf
    (⟨r.2.2, r.2.1, r.2.1 && r.1.isEmpty⟩, r.1)

/-- The algorithm `std::remove_if(line.begin(), line.end(), isspace)` whose result is discarded:
the kept characters move to the front, the string keeps its length, and the positions behind the
kept characters are never written. -/
def remove_if (p : Char → Bool) (line : List Char) : List Char :=
  let kept := line.filter (fun c => !p c)
  kept ++ line.drop kept.length

/-- The read `str[j]` of a `std::string`: the terminating `\0` at `j = str.length()`, `none`
beyond it. -/
def string_at (str : List Char) (j : Nat) : Option Char :=
  if h : j < str.length then some str[j]
  else if j = str.length then some (Char.ofNat 0)
  else none

/-- The call `s.find(pat)` of `std::string`, from the position `pos` of the first character of
`s`: the first position at which `pat` occurs, `-1` (that is `npos`) when there is none. -/
def string_find.from (pat : List Char) : List Char → Nat → Int
  | [], pos => if pat = [] then (pos : Int) else -1
  | c :: rest, pos => if pat <+: c :: rest then (pos : Int) else string_find.from pat rest (pos + 1)

/-- The call `s.find(pat)` of `std::string`. -/
def string_find (s pat : List Char) : Int := string_find.from pat s 0

namespace Trie

/-- The loop `while (getline(dictionary, word)) Addword(word)` (lines 133-134). -/
def LoadDictionary.loop (dictionary : ifstream) (word : List Char) (t : Trie) : Option Trie :=
  if h : (getline dictionary word).1.failbit = false then
    match t.Addword (getline dictionary word).2 with
    | none => none
    | some t1 => LoadDictionary.loop (getline dictionary word).1 (getline dictionary word).2 t1
  else some t
termination_by dictionary.buf.length + (if (dictionary.eofbit || dictionary.failbit) = true then 0 else 1)
decreasing_by
  have hu : ∀ buf : List Char,
      ((getline.extract buf).2.1 = true → (getline.extract buf).2.2 = []) ∧
      ((getline.extract buf).2.1 = false → (getline.extract buf).2.2.length < buf.length) := by
    intro buf
    induction buf with
    | nil => simp [getline.extract]
    | cons c rest ih =>
      by_cases hc : c = '\n'
      · simp [getline.extract, hc]
      · simp only [getline.extract, hc, if_false]
        refine ⟨ih.1, fun h1 => ?_⟩
        have := ih.2 h1
        simp only [List.length_cons]
        omega
  unfold getline at h ⊢
  by_cases hg : (dictionary.eofbit || dictionary.failbit) = true
  · simp [hg] at h
  · simp only [hg] at h ⊢
    simp only [Bool.false_eq_true, if_false] at h ⊢
    cases he : (getline.extract dictionary.buf).2.1
    · have := (hu dictionary.buf).2 he
      simp [he]
      omega
    · have := (hu dictionary.buf).1 he
      simp [he, this] at h ⊢

/-- Open the dictionary file and add all the words from the dictionary into the Trie (lines
125-142).  The file is given by its text, `none` when it cannot be opened.  Returns the `bool`
result and the Trie after the call. -/
def LoadDictionary (t : Trie) (path : Option (List Char)) : Option (Bool × Trie) :=
  match path with
  | some text => do
    let t1 ← LoadDictionary.loop (ifstream.open text) [] t
    pure (true, t1)
  | none => pure (false, t)

end Trie

/-! ## class BoardPosition, class BoggleBoard -/

/-- A position on the Boggle Board: `x` indicates the row, `y` indicates the column. -/
structure BoardPosition where
  x : Nat
  y : Nat

/-- The class `BoggleBoard`: `board[i][j]` for `i < y`, `j < x`; `x` holds the columns and `y` the
rows.  A cell is a `std::string`, empty until it is loaded. -/
structure BoggleBoard where
  board : Nat → Nat → List Char
  x : Nat
  y : Nat

namespace BoggleBoard

/-- Returns the x dimension of the board. -/
def getX (b : BoggleBoard) : Nat := b.x

/-- Returns the y dimension of the board. -/
def getY (b : BoggleBoard) : Nat := b.y

/-- Initializes a board of the input size (lines 233-240). -/
def new (rows columns : Nat) : BoggleBoard := ⟨fun _ _ => [], columns, rows⟩

/-- The write `board[i][j] = c`; `none` outside the `y` by `x` table. -/
def setCell (b : BoggleBoard) (i j : Nat) (c : Char) : Option BoggleBoard :=
  if i < b.y ∧ j < b.x then
    some ⟨fun r k => if r = i ∧ k = j then [c] else b.board r k, b.x, b.y⟩
  else none

/-- The inner loop of `LoadBoard` (lines 269-275) over the columns `j` of a list: the `bool` is
`false` when the loop ran into `return 0`. -/
def LoadBoard.columnLoop (line : List Char) (i : Nat) : List Nat → BoggleBoard → Option (Bool × BoggleBoard)
  | [], b => some (true, b)
  | j :: js, b => do
    let c ← string_at line j
    if isalpha c then
      let b1 ← b.setCell i j c
      LoadBoard.columnLoop line i js b1
    else pure (false, b)

/-- The outer loop of `LoadBoard` (lines 265-276) over the rows `i` of a list. -/
def LoadBoard.rowLoop : List Nat → ifstream → List Char → BoggleBoard → Option (Bool × BoggleBoard)
  | [], _, _, b => some (true, b)
  | i :: is, file2, line, b => do
    let r := getline file2 line
    let line1 := remove_if isspace r.2
    let (ok, b1) ← LoadBoard.columnLoop line1 i (List.range b.x) b
    if ok then LoadBoard.rowLoop is r.1 line1 b1
    else pure (false, b1)

/-- Loads a Boggle board from a text file (lines 258-282).  The file is given by its text, `none`
when it cannot be opened.  Returns the `bool` result and the board after the call. -/
def LoadBoard (b : BoggleBoard) (Board_path : Option (List Char)) : Option (Bool × BoggleBoard) :=
  match Board_path with
  | some text => LoadBoard.rowLoop (List.range b.y) (ifstream.open text) [] b
  | none => some (false, b)

/-- Returns the letter at the given location on the Boggle Board (lines 284-287); `none` outside
the table. -/
def GetLetter (b : BoggleBoard) (location : BoardPosition) : Option (List Char) :=
  if location.x < b.y ∧ location.y < b.x then some (b.board location.x location.y) else none

/-- Converts a vertex ID into a board position (lines 289-293); `none` for the division by zero
when the board has no column. -/
def Vertex_To_BoardPosition (b : BoggleBoard) (vertex : Nat) : Option BoardPosition :=
  if b.x = 0 then none else some ⟨vertex / b.x, vertex % b.x⟩

end BoggleBoard

/-! ## class AdjacencyMatrix -/

/-- The class `AdjacencyMatrix`: the table `adjacencyMatrix[vertices][vertices]`. -/
structure AdjacencyMatrix where
  adjacencyMatrix : List (List Int)
  vertices : Nat

namespace AdjacencyMatrix

/-- Checks if two locations on the boggle board are adjacent (lines 308-314). -/
def CheckAdjacency (position1 position2 : BoardPosition) : Int :=
  if |(position1.x : Int) - (position2.x : Int)| > 1 ∨ |(position1.y : Int) - (position2.y : Int)| > 1 then 0
  else 1

/-- The vertices in the Adjacency Matrix. -/
def Get_Vertices (m : AdjacencyMatrix) : Nat := m.vertices

/-- The entry that the constructor stores at `adjacencyMatrix[i][j]` (lines 338-347). -/
def entry (board : BoggleBoard) (i j : Nat) : Option Int :=
  if i = j then some 0
  else do
    let Location1 ← board.Vertex_To_BoardPosition i
    let Location2 ← board.Vertex_To_BoardPosition j
    pure (CheckAdjacency Location1 Location2)

/-- The constructor `AdjacencyMatrix(board)` (lines 327-350). -/
def new (board : BoggleBoard) : Option AdjacencyMatrix := do
  let vertices := board.getX * board.getY
  let rowsOfMatrix ← (List.range vertices).mapM (fun i => (List.range vertices).mapM (fun j => entry board i j))
  pure ⟨rowsOfMatrix, vertices⟩

/-- Check if two vertices are adjacent (lines 352-358); `none` outside the table. -/
def CheckAdjacent (m : AdjacencyMatrix) (vert1 vert2 : Nat) : Option Bool := do
  let row ← m.adjacencyMatrix[vert1]?
  let e ← row[vert2]?
  if e = 1 then pure true else pure false

end AdjacencyMatrix

/-! ## class BoggleSolver -/

/-- The class `BoggleSolver`: its only member is the set `SolutionWords`. -/
structure BoggleSolver where
  SolutionWords : Finset (List Char)

namespace BoggleSolver

/-- A freshly constructed solver: `SolutionWords` is empty. -/
def new : BoggleSolver := ⟨∅⟩

/-- Finds all available words given the current word and the last letter used on the board (lines
374-395).  The member `SolutionWords` is passed in and returned.  The first argument bounds the
depth of the recursion: `none` when it is used up. -/
def FindWords : Nat → BoggleBoard → List Char → Nat → AdjacencyMatrix → Trie →
    Finset (List Char) → Option (Finset (List Char))
  | 0, _, _, _, _, _, _ => none
  | depth + 1, board, currentWord, lastVertex, adjMat, dictionary, SolutionWords =>
    (List.range adjMat.Get_Vertices).foldlM (fun sol nextVertex => do
      let currentLocation ← board.Vertex_To_BoardPosition nextVertex
      let letter ← board.GetLetter currentLocation
      let adjacent ← adjMat.CheckAdjacent lastVertex nextVertex
      if adjacent && decide (string_find currentWord letter = -1) then
        let isW ← dictionary.FindWord (currentWord ++ letter)
        let sol1 := if isW then insert (currentWord ++ letter) sol else sol
        let sub ← dictionary.isSubstring (currentWord ++ letter)
        if sub then FindWords depth board (currentWord ++ letter) nextVertex adjMat dictionary sol1
        else pure sol1
      else pure sol) SolutionWords

/-- Finds all the possible words that can be made on the input Boggle Board (lines 404-439).  The
two files are given by their text, `none` for a file that cannot be opened.  The result is the
returned set, which is also the member `SolutionWords` after the call.  The recursion of `FindWords`
gets the cell count as its depth bound. -/
def GetSolutions (self : BoggleSolver) (rows columns : Nat)
    (dictionaryPath boardPath : Option (List Char)) : Option (Finset (List Char)) := do
  let (okD, dictionary) ← Trie.new.LoadDictionary dictionaryPath
  if !okD then pure self.SolutionWords
  else
    let (okB, board) ← (BoggleBoard.new rows columns).LoadBoard boardPath
    if !okB then pure self.SolutionWords
    else
      let adjMat ← AdjacencyMatrix.new board
      (List.range adjMat.Get_Vertices).foldlM (fun sol currentVertex => do
        let currentLocation ← board.Vertex_To_BoardPosition currentVertex
        let currentWord ← board.GetLetter currentLocation
        let isW ← dictionary.FindWord currentWord
        let sol1 := if isW then insert currentWord sol else sol
        FindWords adjMat.Get_Vertices board currentWord currentVertex adjMat dictionary sol1)
        self.SolutionWords

end BoggleSolver

/-! ## Auxiliary definitions of the verification -/

/-- The lines of a text: the pieces between its newlines, without a last empty piece.  These are
the strings that successive calls of `getline` deliver until one fails. -/
def fileLines : List Char → List (List Char)
  | [] => []
  | c :: rest =>
    if c = '\n' then [] :: fileLines rest
    else
      match fileLines rest with
      | [] => [[c]]
      | l :: ls => (c :: l) :: ls

namespace Trie

/-- The child-table slot of a character, as an index of the table. -/
def keyOf (c : Char) : Fin 26 :=
  ⟨(GetAlphabeticalIndex (tolower c)).toNat % 26, Nat.mod_lt _ (by decide)⟩

/-- The child-table slots of the characters of a word. -/
def keys (word : List Char) : List (Fin 26) := word.map keyOf

/-- The node reached from `n` along a list of child-table slots; `NULL` when the path leaves the
tree. -/
def walk : Trie_node → List (Fin 26) → Trie_node
  | n, [] => n
  | Trie_node.NULL, _ :: _ => Trie_node.NULL
  | Trie_node.node _ _ ch, k :: ks => walk (ch k) ks

/-- The `isWord` flag of a node, `false` for `NULL`. -/
def wordAt : Trie_node → Bool
  | Trie_node.NULL => false
  | Trie_node.node _ w _ => w

/-- Whether some entry of the child table of a node is not `NULL`; `false` for `NULL`. -/
def anyChild : Trie_node → Bool
  | Trie_node.NULL => false
  | Trie_node.node _ _ ch => (List.finRange 26).any (fun i => !(ch i).isNull)

/-- The node `n` after `Addword.loop` has run over `word` below it, as a total function. -/
def insPath : List Char → Trie_node → Trie_node
  | [], n => n
  | _ :: _, Trie_node.NULL => Trie_node.NULL
  | c :: rest, Trie_node.node l w ch =>
    Trie_node.node l w (fun k =>
      if k = keyOf c then
        insPath rest (if (ch (keyOf c)).isNull then CreateNode (tolower c) (decide (rest = []))
          else ch (keyOf c))
      else ch k)

/-- The root after the words of a list have been inserted in order. -/
def insAll (words : List (List Char)) (n : Trie_node) : Trie_node :=
  words.foldl (fun m w => insPath w m) n

end Trie

namespace AdjacencyMatrix

/-- The entry of the adjacency table at `(i, j)`, as a total function. -/
def entryVal (board : BoggleBoard) (i j : Nat) : Int :=
  if i = j then 0 else CheckAdjacency ⟨i / board.x, i % board.x⟩ ⟨j / board.x, j % board.x⟩

end AdjacencyMatrix

/-! ### The board and the search -/

/-- The string stored on the cell of a vertex. -/
def BoggleBoard.cell (b : BoggleBoard) (v : Nat) : List Char := b.board (v / b.x) (v % b.x)

/-- A cell that holds exactly one alphabetic character. -/
def AlphaCell (s : List Char) : Prop := ∃ c, s = [c] ∧ isalpha c = true

/-- The character on the cell of a vertex of a loaded board. -/
def BoggleBoard.letter (b : BoggleBoard) (v : Nat) : Char := (b.cell v).headD (Char.ofNat 0)

/-- The string spelled by a sequence of vertices. -/
def BoggleBoard.spell (b : BoggleBoard) (path : List Nat) : List Char := path.flatMap b.cell

/-- The adjacency of two vertices as the constructor of `AdjacencyMatrix` stores it. -/
abbrev Adj (b : BoggleBoard) (u v : Nat) : Prop := AdjacencyMatrix.entryVal b u v = 1

/-- The body of the loop of `FindWords` for one `nextVertex`. -/
def BoggleSolver.FindWords.body (depth : Nat) (board : BoggleBoard) (currentWord : List Char)
    (lastVertex : Nat) (adjMat : AdjacencyMatrix) (dictionary : Trie)
    (sol : Finset (List Char)) (nextVertex : Nat) : Option (Finset (List Char)) := do
  let currentLocation ← board.Vertex_To_BoardPosition nextVertex
  let letter ← board.GetLetter currentLocation
  let adjacent ← adjMat.CheckAdjacent lastVertex nextVertex
  if adjacent && decide (string_find currentWord letter = -1) then
    let isW ← dictionary.FindWord (currentWord ++ letter)
    let sol1 := if isW then insert (currentWord ++ letter) sol else sol
    let sub ← dictionary.isSubstring (currentWord ++ letter)
    if sub then BoggleSolver.FindWords depth board (currentWord ++ letter) nextVertex adjMat dictionary sol1
    else pure sol1
  else pure sol

/-- The facts about a loaded board, its adjacency table and the dictionary that the search rests
on. -/
structure SearchCtx (board : BoggleBoard) (adjMat : AdjacencyMatrix) (dictionary : Trie) : Prop where
  vertices_eq : adjMat.Get_Vertices = board.x * board.y
  adjacent : ∀ u v, u < board.x * board.y → v < board.x * board.y →
    adjMat.CheckAdjacent u v = some (decide (AdjacencyMatrix.entryVal board u v = 1))
  cells : ∀ v < board.x * board.y, AlphaCell (board.cell v)
  root : dictionary.rootNode.isNull = false

/-- A string that the dictionary marks as a word and that a path of adjacent cells spells without
repeating a character. -/
def Found (board : BoggleBoard) (dictionary : Trie) (w : List Char) : Prop :=
  Trie.wordAt (Trie.walk dictionary.rootNode (Trie.keys w)) = true ∧
  ∃ path : List Nat, path ≠ [] ∧ (∀ v ∈ path, v < board.x * board.y) ∧
    List.Chain' (Adj board) path ∧ w = board.spell path ∧ w.Nodup

/-- The state of the recursion: `currentWord` is spelled by a path of adjacent cells that ends in
`lastVertex`, and holds no character twice. -/
def OnPath (board : BoggleBoard) (currentWord : List Char) (lastVertex : Nat) : Prop :=
  ∃ init : List Nat, (∀ v ∈ init ++ [lastVertex], v < board.x * board.y) ∧
    List.Chain' (Adj board) (init ++ [lastVertex]) ∧
    currentWord = board.spell (init ++ [lastVertex]) ∧ currentWord.Nodup

/-- A marked word that extends `currentWord` along adjacent cells, the first of them `v`, without
repeating a character. -/
def Via (board : BoggleBoard) (dictionary : Trie) (currentWord : List Char) (lastVertex v : Nat)
    (w : List Char) : Prop :=
  ∃ ext : List Nat, (∀ u ∈ v :: ext, u < board.x * board.y) ∧
    List.Chain (Adj board) lastVertex (v :: ext) ∧
    w = currentWord ++ board.spell (v :: ext) ∧ w.Nodup ∧
    Trie.wordAt (Trie.walk dictionary.rootNode (Trie.keys w)) = true

/-- A marked word spelled from the cell `v` on along adjacent cells, without repeating a
character. -/
def TopVia (board : BoggleBoard) (dictionary : Trie) (v : Nat) (w : List Char) : Prop :=
  ∃ ext : List Nat, (∀ u ∈ v :: ext, u < board.x * board.y) ∧
    List.Chain' (Adj board) (v :: ext) ∧ w = board.spell (v :: ext) ∧ w.Nodup ∧
    Trie.wordAt (Trie.walk dictionary.rootNode (Trie.keys w)) = true

/-- The recursive call of `FindWords` (line 392): from the call with `currentWord` and
`lastVertex`, the loop reaches a `nextVertex` whose letter passes the test of line 385 and whose
extended word passes `isSubstring`, and calls `FindWords` with the extended word and
`nextVertex`. -/
def RecursiveCall (board : BoggleBoard) (adjMat : AdjacencyMatrix) (dictionary : Trie)
    (caller callee : List Char × Nat) : Prop :=
  ∃ currentLocation letter, callee.2 < adjMat.Get_Vertices ∧
    board.Vertex_To_BoardPosition callee.2 = some currentLocation ∧
    board.GetLetter currentLocation = some letter ∧
    adjMat.CheckAdjacent caller.2 callee.2 = some true ∧
    string_find caller.1 letter = -1 ∧
    dictionary.isSubstring (caller.1 ++ letter) = some true ∧
    callee.1 = caller.1 ++ letter

/-- The stream `file2` and the string `line` of `LoadBoard` after the first `i` rounds of its outer
loop (lines 267-268): each round calls `getline` and then `remove_if` on `line`. -/
def BoggleBoard.LoadBoard.lineState (text : List Char) : Nat → ifstream × List Char
  | 0 => (ifstream.open text, [])
  | i + 1 =>
    let r := getline (BoggleBoard.LoadBoard.lineState text i).1
      (BoggleBoard.LoadBoard.lineState text i).2
    (r.1, remove_if isspace r.2)

/-- The string `line` that the inner loop of `LoadBoard` reads for row `i` (lines 269-275). -/
def BoggleBoard.LoadBoard.lineOfRow (text : List Char) (i : Nat) : List Char :=
  (BoggleBoard.LoadBoard.lineState text (i + 1)).2

/-! # Verification

## Characters -/

theorem toNat_ofNat_small (n : Nat) (h : n < 55296) : (Char.ofNat n).toNat = n := by
  have hv : n.isValidChar := Or.inl h
  simp only [Char.ofNat, hv, dite_true]
  simp only [Char.ofNatAux, Char.toNat]
  rfl

theorem tolower_toNat (c : Char) :
    (tolower c).toNat = if 65 ≤ c.toNat ∧ c.toNat ≤ 90 then c.toNat + 32 else c.toNat := by
  unfold tolower
  split
  · rw [toNat_ofNat_small]; omega
  · rfl

theorem char_eq_of_toNat_eq {a b : Char} (h : a.toNat = b.toNat) : a = b := by
  rw [← Char.ofNat_toNat a, ← Char.ofNat_toNat b, h]

theorem isalpha_iff (c : Char) :
    isalpha c = true ↔ (65 ≤ c.toNat ∧ c.toNat ≤ 90) ∨ (97 ≤ c.toNat ∧ c.toNat ≤ 122) := by
  simp [isalpha]

theorem tolower_range {c : Char} (h : isalpha c = true) :
    97 ≤ (tolower c).toNat ∧ (tolower c).toNat ≤ 122 := by
  rw [tolower_toNat]
  rw [isalpha_iff] at h
  split <;> omega

namespace Trie

theorem index_of_isalpha {c : Char} (h : isalpha c = true) :
    GetAlphabeticalIndex (tolower c) = ((tolower c).toNat : Int) - 97 := by
  have hr := tolower_range h
  unfold GetAlphabeticalIndex
  have hne : tolower c ≠ '0' := by
    intro h0
    rw [h0] at hr
    have : ('0' : Char).toNat = 48 := by decide
    omega
  simp only [hne, if_false]
  have : ('a' : Char).toNat = 97 := by decide
  rw [this]; rfl

theorem keyOf_val {c : Char} (h : isalpha c = true) :
    ((keyOf c).val : Int) = GetAlphabeticalIndex (tolower c) := by
  have hr := tolower_range h
  simp only [keyOf, index_of_isalpha h]
  omega

theorem index_bounds {c : Char} (h : isalpha c = true) :
    0 ≤ GetAlphabeticalIndex (tolower c) ∧ GetAlphabeticalIndex (tolower c) < 26 := by
  have hr := tolower_range h
  rw [index_of_isalpha h]
  omega

theorem keyOf_eq_iff {a b : Char} (ha : isalpha a = true) (hb : isalpha b = true) :
    keyOf a = keyOf b ↔ tolower a = tolower b := by
  constructor
  · intro h
    have h1 : ((keyOf a).val : Int) = ((keyOf b).val : Int) := by rw [h]
    rw [keyOf_val ha, keyOf_val hb, index_of_isalpha ha, index_of_isalpha hb] at h1
    apply char_eq_of_toNat_eq
    omega
  · intro h
    simp only [keyOf, h]


theorem walk_nil (n : Trie_node) : walk n [] = n := by
  cases n <;> rfl

theorem walk_null (p : List (Fin 26)) : walk Trie_node.NULL p = Trie_node.NULL := by
  cases p <;> rfl

theorem walk_append (n : Trie_node) (p q : List (Fin 26)) : walk n (p ++ q) = walk (walk n p) q := by
  induction p generalizing n with
  | nil => simp [walk_nil]
  | cons k ks ih =>
    cases n with
    | NULL => simp [walk, walk_null]
    | node l w ch => simp [walk, ih]

theorem getChild_node (l : Char) (w : Bool) (ch : Fin 26 → Trie_node) {c : Char}
    (h : isalpha c = true) :
    (Trie_node.node l w ch).getChild (GetAlphabeticalIndex (tolower c)) = some (ch (keyOf c)) := by
  have hb := index_bounds h
  have hk := keyOf_val h
  simp only [Trie_node.getChild, hb, and_self, dite_true]
  congr 2
  apply Fin.ext
  simp only
  omega

theorem setChild_node (l : Char) (w : Bool) (ch : Fin 26 → Trie_node) (q : Trie_node) {c : Char}
    (h : isalpha c = true) :
    (Trie_node.node l w ch).setChild (GetAlphabeticalIndex (tolower c)) q
      = some (Trie_node.node l w (fun k => if k = keyOf c then q else ch k)) := by
  have hb := index_bounds h
  have hk := keyOf_val h
  simp only [Trie_node.setChild, hb, and_self, if_true]
  congr 2
  funext k
  have : ((k.val : Int) = GetAlphabeticalIndex (tolower c)) ↔ k = keyOf c := by
    rw [← hk]
    constructor
    · intro h1; apply Fin.ext; omega
    · intro h1; rw [h1]
  simp only [this]

theorem tolower_idem (c : Char) : tolower (tolower c) = tolower c := by
  apply char_eq_of_toNat_eq
  rw [tolower_toNat (tolower c)]
  have h := tolower_toNat c
  split_ifs at h ⊢ <;> omega

theorem isalpha_tolower {c : Char} (h : isalpha c = true) : isalpha (tolower c) = true := by
  have := tolower_range h
  rw [isalpha_iff]; omega

theorem keyOf_tolower (c : Char) : keyOf (tolower c) = keyOf c := by
  simp only [keyOf, tolower_idem]

theorem GetLeafNode_loop_eq (word : List Char) (hw : ∀ c ∈ word, isalpha c = true)
    (n : Trie_node) (hn : n.isNull = false) :
    GetLeafNode.loop word n = some (walk n (keys word)) := by
  induction word generalizing n with
  | nil => simp [GetLeafNode.loop, keys, walk_nil]
  | cons c rest ih =>
    cases n with
    | NULL => simp [Trie_node.isNull] at hn
    | node l w ch =>
      have hc : isalpha c = true := hw c (by simp)
      have hrest : ∀ d ∈ rest, isalpha d = true := fun d hd => hw d (by simp [hd])
      simp only [GetLeafNode.loop, getChild_node l w ch hc, Option.bind_eq_bind, Option.some_bind,
        keys, List.map_cons, walk]
      cases hnull : (ch (keyOf c)).isNull with
      | true =>
        have : ch (keyOf c) = Trie_node.NULL := by
          cases hx : ch (keyOf c) with
          | NULL => rfl
          | node _ _ _ => rw [hx] at hnull; simp [Trie_node.isNull] at hnull
        simp [this, walk_null]
      | false =>
        simp only [Bool.false_eq_true, if_false]
        exact ih hrest _ hnull

theorem insPath_isNull (word : List Char) (n : Trie_node) (hn : n.isNull = false) :
    (insPath word n).isNull = false := by
  cases word with
  | nil => exact hn
  | cons c rest =>
    cases n with
    | NULL => simp [Trie_node.isNull] at hn
    | node l w ch => rfl

theorem Addword_loop_eq (lastLetter : Int) (word : List Char) (hw : ∀ c ∈ word, isalpha c = true)
    (i : Int) (hi : i + word.length = lastLetter + 1)
    (n : Trie_node) (hn : n.isNull = false) :
    Addword.loop lastLetter word i n = some (insPath word n) := by
  induction word generalizing n i with
  | nil => rfl
  | cons c rest ih =>
    cases n with
    | NULL => simp [Trie_node.isNull] at hn
    | node l w ch =>
      have hc : isalpha c = true := hw c (by simp)
      have hrest : ∀ d ∈ rest, isalpha d = true := fun d hd => hw d (by simp [hd])
      have hi1 : i + 1 + rest.length = lastLetter + 1 := by
        simp only [List.length_cons, Nat.cast_add, Nat.cast_one] at hi; omega
      have hlast : decide (i = lastLetter) = decide (rest = []) := by
        simp only [List.length_cons, Nat.cast_add, Nat.cast_one] at hi
        cases rest with
        | nil => simp at hi ⊢; omega
        | cons d ds =>
          simp only [List.length_cons, Nat.cast_add, Nat.cast_one] at hi
          simp; omega
      simp only [Addword.loop, getChild_node l w ch hc, Option.bind_eq_bind, Option.some_bind]
      cases hnull : (ch (keyOf c)).isNull with
      | true =>
        simp only [if_true, AddNode, setChild_node l w ch _ hc,
          Option.bind_eq_bind, Option.some_bind, Option.pure_def]
        rw [ih hrest (i + 1) hi1 _ (by rfl)]
        simp only [Option.some_bind, setChild_node _ _ _ _ hc, insPath, hnull, if_true, hlast]
        congr 2
        funext k
        by_cases hk : k = keyOf c <;> simp [hk]
      | false =>
        simp only [Bool.false_eq_true, if_false]
        rw [ih hrest (i + 1) hi1 _ hnull]
        simp only [Option.some_bind, setChild_node _ _ _ _ hc, insPath, hnull]
        simp

theorem Addword_eq (t : Trie) (ht : t.rootNode.isNull = false) (word : List Char)
    (hw : ∀ c ∈ word, isalpha c = true) :
    t.Addword word = some ⟨insPath word t.rootNode⟩ := by
  simp only [Addword]
  rw [Addword_loop_eq _ word hw 0 (by omega) _ ht]
  rfl

theorem AddWords_eq (words : List (List Char)) (hws : ∀ w ∈ words, ∀ c ∈ w, isalpha c = true)
    (t : Trie) (ht : t.rootNode.isNull = false) :
    t.AddWords words = some ⟨words.foldl (fun n w => insPath w n) t.rootNode⟩ := by
  induction words generalizing t with
  | nil => rfl
  | cons w ws ih =>
    simp only [AddWords, List.foldlM_cons, Addword_eq t ht w (hws w (by simp)),
      Option.bind_eq_bind, Option.some_bind, List.foldl_cons]
    exact ih (fun v hv => hws v (by simp [hv])) ⟨insPath w t.rootNode⟩ (insPath_isNull _ _ ht)

theorem FindWord_eq (t : Trie) (ht : t.rootNode.isNull = false) (s : List Char)
    (hs : ∀ c ∈ s, isalpha c = true) :
    t.FindWord s = some (wordAt (walk t.rootNode (keys s))) := by
  simp only [FindWord, GetLeafNode, GetLeafNode_loop_eq s hs _ ht, Option.bind_eq_bind,
    Option.some_bind]
  cases walk t.rootNode (keys s) with
  | NULL => rfl
  | node l w ch => cases w <;> rfl

theorem isSubstring_eq (t : Trie) (ht : t.rootNode.isNull = false) (s : List Char)
    (hs : ∀ c ∈ s, isalpha c = true) :
    t.isSubstring s = some (anyChild (walk t.rootNode (keys s))) := by
  simp only [isSubstring, GetLeafNode, GetLeafNode_loop_eq s hs _ ht, Option.bind_eq_bind,
    Option.some_bind]
  cases walk t.rootNode (keys s) with
  | NULL => rfl
  | node l w ch => rfl


/-! ### What a path meets after an insertion -/

theorem isNull_eq_true {n : Trie_node} (h : n.isNull = true) : n = Trie_node.NULL := by
  cases n with
  | NULL => rfl
  | node _ _ _ => simp [Trie_node.isNull] at h

theorem walk_CreateNode (c : Char) (b : Bool) (p : List (Fin 26)) :
    (walk (CreateNode c b) p).isNull = false ↔ p = [] := by
  cases p with
  | nil => simp [walk_nil, CreateNode, Trie_node.isNull]
  | cons k ks => simp [CreateNode, walk, walk_null, Trie_node.isNull]

theorem wordAt_walk_CreateNode (c : Char) (b : Bool) (p : List (Fin 26)) :
    wordAt (walk (CreateNode c b) p) = true ↔ p = [] ∧ b = true := by
  cases p with
  | nil => simp [walk_nil, CreateNode, wordAt]
  | cons k ks => simp [CreateNode, walk, walk_null, wordAt]

theorem present_insPath (word : List Char) (n : Trie_node) (hn : n.isNull = false)
    (p : List (Fin 26)) :
    (walk (insPath word n) p).isNull = false ↔ (walk n p).isNull = false ∨ p <+: keys word := by
  induction word generalizing n p with
  | nil =>
    simp only [insPath, keys, List.map_nil, List.prefix_nil]
    constructor
    · exact Or.inl
    · rintro (h | h)
      · exact h
      · rw [h, walk_nil]; exact hn
  | cons c rest ih =>
    cases n with
    | NULL => simp [Trie_node.isNull] at hn
    | node l w ch =>
      cases p with
      | nil => simp [walk_nil, insPath, Trie_node.isNull]
      | cons k ks =>
        simp only [insPath, walk, keys, List.map_cons, List.cons_prefix_cons]
        by_cases hk : k = keyOf c
        · subst hk
          simp only [if_true, true_and]
          cases hnull : (ch (keyOf c)).isNull with
          | true =>
            simp only [if_true]
            rw [ih _ (by rfl), walk_CreateNode, isNull_eq_true hnull, walk_null]
            simp only [Trie_node.isNull, Bool.true_eq_false, false_or]
            constructor
            · rintro (h | h)
              · rw [h]; exact List.nil_prefix
              · exact h
            · exact Or.inr
          | false =>
            simp only [Bool.false_eq_true, if_false]
            rw [ih _ hnull]
            rfl
        · simp [hk]

theorem wordAt_insPath (word : List Char) (n : Trie_node) (hn : n.isNull = false)
    (p : List (Fin 26)) :
    wordAt (walk (insPath word n) p) = true ↔
      wordAt (walk n p) = true ∨ (p = keys word ∧ (walk n p).isNull = true) := by
  induction word generalizing n p with
  | nil =>
    simp only [insPath, keys, List.map_nil]
    constructor
    · exact Or.inl
    · rintro (h | ⟨h1, h2⟩)
      · exact h
      · rw [h1, walk_nil, hn] at h2; simp at h2
  | cons c rest ih =>
    cases n with
    | NULL => simp [Trie_node.isNull] at hn
    | node l w ch =>
      cases p with
      | nil => simp [walk_nil, insPath, wordAt, keys]
      | cons k ks =>
        simp only [insPath, walk, keys, List.map_cons, List.cons.injEq]
        by_cases hk : k = keyOf c
        · subst hk
          simp only [if_true, true_and]
          cases hnull : (ch (keyOf c)).isNull with
          | true =>
            simp only [if_true]
            have hcn : ∀ q : List (Fin 26),
                (walk (CreateNode (tolower c) (decide (rest = []))) q).isNull = true ↔ q ≠ [] := by
              intro q
              have := walk_CreateNode (tolower c) (decide (rest = [])) q
              cases hq : (walk (CreateNode (tolower c) (decide (rest = []))) q).isNull <;> simp_all
            have hN : Trie_node.NULL.isNull = true := rfl
            rw [ih _ (by rfl), wordAt_walk_CreateNode, isNull_eq_true hnull, walk_null, hcn]
            simp only [wordAt, Bool.false_eq_true, false_or, hN, and_true, decide_eq_true_eq, keys]
            constructor
            · rintro (⟨h1, h2⟩ | ⟨h1, _⟩)
              · rw [h1, h2]; rfl
              · exact h1
            · intro h
              by_cases hr : rest = []
              · left; subst hr; exact ⟨h, rfl⟩
              · right
                refine ⟨h, ?_⟩
                rw [h]
                cases rest with
                | nil => exact absurd rfl hr
                | cons d ds => simp
          | false =>
            simp only [Bool.false_eq_true, if_false]
            rw [ih _ hnull]
            rfl
        · simp [hk]

theorem insAll_isNull (words : List (List Char)) (n : Trie_node) (hn : n.isNull = false) :
    (insAll words n).isNull = false := by
  induction words generalizing n with
  | nil => exact hn
  | cons w ws ih => exact ih _ (insPath_isNull w n hn)

theorem present_insAll (words : List (List Char)) (n : Trie_node) (hn : n.isNull = false)
    (p : List (Fin 26)) :
    (walk (insAll words n) p).isNull = false ↔
      (walk n p).isNull = false ∨ ∃ w ∈ words, p <+: keys w := by
  induction words generalizing n with
  | nil => simp [insAll]
  | cons w ws ih =>
    have := ih (insPath w n) (insPath_isNull w n hn)
    simp only [insAll, List.foldl_cons] at this ⊢
    rw [this, present_insPath w n hn]
    simp only [List.mem_cons, exists_eq_or_imp]
    tauto

theorem wordAt_insAll_mono (words : List (List Char)) (n : Trie_node) (hn : n.isNull = false)
    (p : List (Fin 26)) (h : wordAt (walk n p) = true) :
    wordAt (walk (insAll words n) p) = true := by
  induction words generalizing n with
  | nil => exact h
  | cons w ws ih =>
    exact ih (insPath w n) (insPath_isNull w n hn) ((wordAt_insPath w n hn p).2 (Or.inl h))

theorem wordAt_insAll_sound (words : List (List Char)) (n : Trie_node) (hn : n.isNull = false)
    (p : List (Fin 26)) (h : wordAt (walk (insAll words n) p) = true) :
    wordAt (walk n p) = true ∨ ∃ w ∈ words, p = keys w := by
  induction words generalizing n with
  | nil => exact Or.inl h
  | cons w ws ih =>
    rcases ih (insPath w n) (insPath_isNull w n hn) h with h1 | ⟨v, hv, hp⟩
    · rcases (wordAt_insPath w n hn p).1 h1 with h2 | ⟨h2, _⟩
      · exact Or.inl h2
      · exact Or.inr ⟨w, by simp, h2⟩
    · exact Or.inr ⟨v, by simp [hv], hp⟩

theorem wordAt_insAll_first (pre : List (List Char)) (w : List Char) (post : List (List Char))
    (n : Trie_node) (hn : n.isNull = false)
    (hnew : (walk n (keys w)).isNull = true)
    (hpre : ∀ v ∈ pre, keys w <+: keys v → keys v = keys w) :
    wordAt (walk (insAll (pre ++ w :: post) n) (keys w)) = true := by
  induction pre generalizing n with
  | nil =>
    simp only [List.nil_append, insAll, List.foldl_cons]
    exact wordAt_insAll_mono post _ (insPath_isNull w n hn) _
      ((wordAt_insPath w n hn _).2 (Or.inr ⟨rfl, hnew⟩))
  | cons v vs ih =>
    simp only [List.cons_append, insAll, List.foldl_cons]
    by_cases hv : keys w <+: keys v
    · have hk := hpre v (by simp) hv
      apply wordAt_insAll_mono _ _ (insPath_isNull v n hn)
      exact (wordAt_insPath v n hn _).2 (Or.inr ⟨hk.symm, hnew⟩)
    · apply ih _ (insPath_isNull v n hn)
      · have := (present_insPath v n hn (keys w)).not
        cases hx : (walk (insPath v n) (keys w)).isNull with
        | true => rfl
        | false =>
          rcases (present_insPath v n hn (keys w)).1 hx with h1 | h1
          · rw [hnew] at h1; simp at h1
          · exact absurd h1 hv
      · exact fun u hu => hpre u (by simp [hu])

theorem anyChild_iff (n : Trie_node) :
    anyChild n = true ↔ ∃ k : Fin 26, (walk n [k]).isNull = false := by
  cases n with
  | NULL => simp [anyChild, walk, Trie_node.isNull]
  | node l w ch =>
    simp only [anyChild, List.any_eq_true, List.mem_finRange, true_and, walk, walk_nil,
      Bool.not_eq_true']

/-! ### Slots and lower-cased words -/

theorem keys_prefix_iff (s w : List Char) (hs : ∀ c ∈ s, isalpha c = true)
    (hw : ∀ c ∈ w, isalpha c = true) :
    keys s <+: keys w ↔ s.map tolower <+: w.map tolower := by
  induction s generalizing w with
  | nil => simp [keys]
  | cons a s ih =>
    cases w with
    | nil => simp [keys]
    | cons b w =>
      have ha : isalpha a = true := hs a (by simp)
      have hb : isalpha b = true := hw b (by simp)
      have := ih w (fun c hc => hs c (by simp [hc])) (fun c hc => hw c (by simp [hc]))
      simp only [keys, List.map_cons, List.cons_prefix_cons] at this ⊢
      rw [keyOf_eq_iff ha hb, this]

theorem keys_eq_iff (s w : List Char) (hs : ∀ c ∈ s, isalpha c = true)
    (hw : ∀ c ∈ w, isalpha c = true) :
    keys s = keys w ↔ s.map tolower = w.map tolower := by
  induction s generalizing w with
  | nil => cases w <;> simp [keys]
  | cons a s ih =>
    cases w with
    | nil => simp [keys]
    | cons b w =>
      have ha : isalpha a = true := hs a (by simp)
      have hb : isalpha b = true := hw b (by simp)
      have := ih w (fun c hc => hs c (by simp [hc])) (fun c hc => hw c (by simp [hc]))
      simp only [keys, List.map_cons, List.cons.injEq] at this ⊢
      rw [keyOf_eq_iff ha hb, this]

/-! ### Tries loaded from a fresh Trie -/

theorem new_isNull : Trie.new.rootNode.isNull = false := rfl

theorem walk_new (p : List (Fin 26)) : (walk Trie.new.rootNode p).isNull = false ↔ p = [] :=
  walk_CreateNode _ _ p

theorem wordAt_walk_new (p : List (Fin 26)) : wordAt (walk Trie.new.rootNode p) = false := by
  have := wordAt_walk_CreateNode (Char.ofNat 0) false p
  cases h : wordAt (walk Trie.new.rootNode p) with
  | false => rfl
  | true => exact absurd (this.1 h).2 (by simp)

/-- Loading letter-only words into a fresh Trie succeeds, and the queries on the result are total:
`FindWord` answers by the `isWord` flag and `isSubstring` by the child table of the node reached. -/
theorem AddWords_new (words : List (List Char)) (hws : ∀ w ∈ words, ∀ c ∈ w, isalpha c = true) :
    ∃ t, Trie.new.AddWords words = some t ∧ t.rootNode = insAll words Trie.new.rootNode ∧
      t.rootNode.isNull = false :=
  ⟨⟨insAll words Trie.new.rootNode⟩, AddWords_eq words hws _ new_isNull, rfl,
    insAll_isNull _ _ new_isNull⟩

theorem FindWord_loaded (words : List (List Char)) (s : List Char)
    (h : wordAt (walk (insAll words Trie.new.rootNode) (keys s)) = true) :
    ∃ w ∈ words, keys s = keys w := by
  rcases wordAt_insAll_sound words _ new_isNull _ h with h1 | h1
  · rw [wordAt_walk_new] at h1; simp at h1
  · exact h1

theorem anyChild_loaded (words : List (List Char)) (s : List Char) :
    anyChild (walk (insAll words Trie.new.rootNode) (keys s)) = true ↔
      ∃ w ∈ words, keys s <+: keys w ∧ s.length < w.length := by
  rw [anyChild_iff]
  constructor
  · rintro ⟨k, hk⟩
    rw [← walk_append, present_insAll _ _ new_isNull, walk_new] at hk
    rcases hk with hk | ⟨w, hw, hp⟩
    · simp at hk
    · refine ⟨w, hw, (List.prefix_append _ _).trans hp, ?_⟩
      have := hp.length_le
      simp [keys] at this
      omega
  · rintro ⟨w, hw, hp, hlen⟩
    obtain ⟨r, hr⟩ := hp
    cases r with
    | nil =>
      have := congrArg List.length hr
      simp [keys] at this
      omega
    | cons k r =>
      refine ⟨k, ?_⟩
      rw [← walk_append, present_insAll _ _ new_isNull]
      right
      refine ⟨w, hw, ?_⟩
      rw [← hr]
      exact ⟨r, by simp⟩

end Trie

/-! ## Reading the dictionary file -/

theorem fileLines_extract (text : List Char) (h : text ≠ []) :
    fileLines text = (getline.extract text).1 :: fileLines (getline.extract text).2.2 ∧
      ((getline.extract text).2.1 = true → (getline.extract text).2.2 = [] ∧
        (getline.extract text).1 ≠ []) ∧
      (getline.extract text).2.2.length < text.length := by
  induction text with
  | nil => exact absurd rfl h
  | cons c rest ih =>
    by_cases hc : c = '\n'
    · simp [fileLines, getline.extract, hc]
    · simp only [fileLines, getline.extract, hc, if_false]
      cases rest with
      | nil => simp [fileLines, getline.extract]
      | cons d ds =>
        obtain ⟨h1, h2, h3⟩ := ih (by simp)
        rw [h1]
        refine ⟨rfl, fun he => ⟨(h2 he).1, by simp⟩, ?_⟩
        simp only [List.length_cons] at h3 ⊢
        omega

theorem loop_fileLines (n : Nat) : ∀ (text word : List Char) (t : Trie), text.length ≤ n →
    Trie.LoadDictionary.loop ⟨text, false, false⟩ word t = t.AddWords (fileLines text) := by
  induction n with
  | zero =>
    intro text word t hlen
    have : text = [] := List.length_eq_zero.1 (Nat.le_zero.1 hlen)
    subst this
    rw [Trie.LoadDictionary.loop]
    simp [getline, getline.extract, fileLines, Trie.AddWords]
  | succ n ih =>
    intro text word t hlen
    by_cases htext : text = []
    · subst htext
      rw [Trie.LoadDictionary.loop]
      simp [getline, getline.extract, fileLines, Trie.AddWords]
    · obtain ⟨h1, h2, h3⟩ := fileLines_extract text htext
      rw [Trie.LoadDictionary.loop, h1]
      cases he : (getline.extract text).2.1 with
      | false =>
        have hg : getline ⟨text, false, false⟩ word
            = (⟨(getline.extract text).2.2, false, false⟩, (getline.extract text).1) := by
          simp [getline, he]
        simp only [hg, dite_true]
        cases hA : t.Addword (getline.extract text).1 with
        | none => simp [Trie.AddWords, hA]
        | some t1 =>
          simp only [Trie.AddWords, List.foldlM_cons, hA, Option.bind_eq_bind, Option.some_bind]
          exact ih _ _ t1 (by omega)
      | true =>
        obtain ⟨hrest, hline⟩ := h2 he
        have hg : getline ⟨text, false, false⟩ word
            = (⟨[], true, false⟩, (getline.extract text).1) := by
          simp [getline, he, hrest, hline]
        simp only [hg, dite_true, hrest]
        cases hA : t.Addword (getline.extract text).1 with
        | none => simp [Trie.AddWords, hA]
        | some t1 =>
          simp only [Trie.AddWords, List.foldlM_cons, hA, Option.bind_eq_bind, Option.some_bind]
          rw [Trie.LoadDictionary.loop]
          simp [getline, fileLines]

theorem LoadDictionary_fileLines (text : List Char) (t : Trie) :
    t.LoadDictionary (some text) = (t.AddWords (fileLines text)).bind (fun t1 => some (true, t1)) := by
  simp only [Trie.LoadDictionary, ifstream.open, loop_fileLines text.length text [] t (le_refl _)]
  rfl

theorem eq_some_of_map_decide {α : Type} [DecidableEq α] (x : Option α) (a : α)
    (h : x.map (fun s => decide (s = a)) = some true) : x = some a := by
  cases x with
  | none => simp at h
  | some s => simpa using h

/-! ## The adjacency table -/

theorem mapM_eq_some_map {α β : Type} (f : α → Option β) (g : α → β) (l : List α)
    (h : ∀ a ∈ l, f a = some (g a)) : l.mapM f = some (l.map g) := by
  induction l with
  | nil => rfl
  | cons a l ih =>
    rw [List.mapM_cons, h a (by simp), ih (fun b hb => h b (by simp [hb]))]
    rfl

namespace AdjacencyMatrix

theorem entry_eq (board : BoggleBoard) (hx : board.x ≠ 0) (i j : Nat) :
    entry board i j = some (entryVal board i j) := by
  unfold entry entryVal
  split
  · rfl
  · simp [BoggleBoard.Vertex_To_BoardPosition, hx]

theorem new_eq (board : BoggleBoard) :
    AdjacencyMatrix.new board = some ⟨(List.range (board.x * board.y)).map (fun i =>
      (List.range (board.x * board.y)).map (fun j => entryVal board i j)), board.x * board.y⟩ := by
  unfold AdjacencyMatrix.new
  simp only [BoggleBoard.getX, BoggleBoard.getY]
  by_cases hx : board.x = 0
  · simp only [hx, Nat.zero_mul, List.range_zero, List.mapM_nil, List.map_nil]
    rfl
  · rw [mapM_eq_some_map _ (fun i => (List.range (board.x * board.y)).map
      (fun j => entryVal board i j))]
    · rfl
    · intro i _
      exact mapM_eq_some_map _ _ _ (fun j _ => entry_eq board hx i j)

theorem CheckAdjacent_new (board : BoggleBoard) (i j : Nat) (hi : i < board.x * board.y)
    (hj : j < board.x * board.y) :
    ∃ m, AdjacencyMatrix.new board = some m ∧ m.vertices = board.x * board.y ∧
      m.CheckAdjacent i j = some (decide (entryVal board i j = 1)) := by
  refine ⟨_, new_eq board, rfl, ?_⟩
  simp only [CheckAdjacent, List.getElem?_map, List.getElem?_range hi, List.getElem?_range hj,
    Option.map_some', Option.bind_eq_bind, Option.some_bind]
  by_cases h : entryVal board i j = 1 <;> simp [h]

theorem entryVal_eq_one (board : BoggleBoard) (i j : Nat) :
    entryVal board i j = 1 ↔ i ≠ j ∧ |((i / board.x : Nat) : Int) - ((j / board.x : Nat) : Int)| ≤ 1 ∧
      |((i % board.x : Nat) : Int) - ((j % board.x : Nat) : Int)| ≤ 1 := by
  unfold entryVal CheckAdjacency
  by_cases hij : i = j
  · simp [hij]
  · simp only [hij, if_false, ne_eq, not_false_eq_true, true_and]
    split
    · rename_i h
      constructor
      · intro h1; exact absurd h1 (by decide)
      · rintro ⟨h1, h2⟩
        rcases h with h | h <;> omega
    · rename_i h
      simp only [not_or, not_lt] at h
      exact ⟨fun _ => h, fun _ => rfl⟩

end AdjacencyMatrix

/-! ## The board and the search -/

theorem string_find_from_singleton (c : Char) (s : List Char) (pos : Nat) :
    (string_find.from [c] s pos = -1 ↔ c ∉ s) ∧ (string_find.from [c] s pos = -1 ∨ (pos : Int) ≤ string_find.from [c] s pos) := by
  induction s generalizing pos with
  | nil => simp [string_find.from]
  | cons a rest ih =>
    simp only [string_find.from, List.cons_prefix_cons, List.nil_prefix, and_true, List.mem_cons]
    by_cases hca : c = a
    · simp only [hca, if_true, true_or, not_true_eq_false, iff_false]
      constructor
      · omega
      · right; exact le_refl _
    · simp only [hca, if_false, false_or]
      refine ⟨(ih (pos + 1)).1, ?_⟩
      rcases (ih (pos + 1)).2 with h | h
      · exact Or.inl h
      · right
        have : ((pos + 1 : Nat) : Int) = (pos : Int) + 1 := by simp
        omega

theorem string_find_singleton (c : Char) (s : List Char) :
    string_find s [c] = -1 ↔ c ∉ s :=
  (string_find_from_singleton c s 0).1

namespace BoggleBoard

theorem position_of_vertex (b : BoggleBoard) (v : Nat) (hv : v < b.x * b.y) :
    b.Vertex_To_BoardPosition v = some ⟨v / b.x, v % b.x⟩ ∧
      b.GetLetter ⟨v / b.x, v % b.x⟩ = some (b.cell v) := by
  have hx : b.x ≠ 0 := by
    intro h; rw [h] at hv; simp at hv
  have hpos : 0 < b.x := Nat.pos_of_ne_zero hx
  constructor
  · simp [Vertex_To_BoardPosition, hx]
  · have h1 : v / b.x < b.y := (Nat.div_lt_iff_lt_mul hpos).2 (by rw [Nat.mul_comm]; exact hv)
    have h2 : v % b.x < b.x := Nat.mod_lt _ hpos
    simp [GetLetter, h1, h2, cell]

theorem columnLoop_true (line : List Char) (i : Nat) (js : List Nat) (b b1 : BoggleBoard)
    (h : LoadBoard.columnLoop line i js b = some (true, b1)) :
    b1.x = b.x ∧ b1.y = b.y ∧ (∀ r k, AlphaCell (b.board r k) → AlphaCell (b1.board r k)) ∧
      (∀ j ∈ js, AlphaCell (b1.board i j)) := by
  induction js generalizing b with
  | nil =>
    simp only [LoadBoard.columnLoop, Option.some.injEq, Prod.mk.injEq, true_and] at h
    subst h
    simp
  | cons j js ih =>
    simp only [LoadBoard.columnLoop, Option.bind_eq_bind] at h
    cases hc : string_at line j with
    | none => rw [hc] at h; simp at h
    | some c =>
      rw [hc] at h
      simp only [Option.some_bind] at h
      cases ha : isalpha c with
      | false => rw [ha] at h; simp at h
      | true =>
        rw [ha] at h
        simp only [if_true] at h
        cases hs : b.setCell i j c with
        | none => rw [hs] at h; simp at h
        | some b2 =>
          rw [hs] at h
          simp only [Option.some_bind] at h
          obtain ⟨hx, hy, hpres, hnew⟩ := ih b2 h
          unfold setCell at hs
          split at hs
          · simp only [Option.some.injEq] at hs
            subst hs
            simp only at hx hy hpres hnew
            refine ⟨hx, hy, ?_, ?_⟩
            · intro r k hrk
              apply hpres
              by_cases hk : r = i ∧ k = j
              · simp only [hk, and_self, if_true]; exact ⟨c, rfl, ha⟩
              · simp only [hk, if_false]; exact hrk
            · intro k hk
              rcases List.mem_cons.1 hk with hk | hk
              · subst hk
                apply hpres
                simp only [and_self, if_true]; exact ⟨c, rfl, ha⟩
              · exact hnew k hk
          · simp at hs

theorem rowLoop_true (is : List Nat) (file2 : ifstream) (line : List Char) (b b1 : BoggleBoard)
    (h : LoadBoard.rowLoop is file2 line b = some (true, b1)) :
    b1.x = b.x ∧ b1.y = b.y ∧ (∀ r k, AlphaCell (b.board r k) → AlphaCell (b1.board r k)) ∧
      (∀ i ∈ is, ∀ j < b.x, AlphaCell (b1.board i j)) := by
  induction is generalizing file2 line b with
  | nil =>
    simp only [LoadBoard.rowLoop, Option.some.injEq, Prod.mk.injEq, true_and] at h
    subst h
    simp
  | cons i is ih =>
    simp only [LoadBoard.rowLoop, Option.bind_eq_bind] at h
    cases hc : LoadBoard.columnLoop (remove_if isspace (getline file2 line).2) i (List.range b.x) b with
    | none => rw [hc] at h; simp at h
    | some r =>
      obtain ⟨ok, b2⟩ := r
      rw [hc] at h
      simp only [Option.some_bind] at h
      cases ok with
      | false => simp at h
      | true =>
        simp only [if_true] at h
        obtain ⟨hx2, hy2, hpres2, hnew2⟩ := columnLoop_true _ _ _ _ _ hc
        obtain ⟨hx, hy, hpres, hnew⟩ := ih _ _ b2 h
        refine ⟨hx.trans hx2, hy.trans hy2, fun r k hrk => hpres r k (hpres2 r k hrk), ?_⟩
        intro r hr j hj
        rcases List.mem_cons.1 hr with hr | hr
        · subst hr
          exact hpres _ _ (hnew2 j (List.mem_range.2 hj))
        · exact hnew r hr j (by rw [hx2]; exact hj)

theorem LoadBoard_true (rows columns : Nat) (boardPath : Option (List Char)) (board : BoggleBoard)
    (h : (BoggleBoard.new rows columns).LoadBoard boardPath = some (true, board)) :
    board.x = columns ∧ board.y = rows ∧ ∀ v < board.x * board.y, AlphaCell (board.cell v) := by
  cases boardPath with
  | none => simp [LoadBoard] at h
  | some text =>
    simp only [LoadBoard] at h
    obtain ⟨hx, hy, _, hnew⟩ := rowLoop_true _ _ _ _ _ h
    simp only [BoggleBoard.new] at hx hy hnew
    refine ⟨hx, hy, fun v hv => ?_⟩
    rw [hx, hy] at hv
    have hpos : 0 < columns := by
      rcases Nat.eq_zero_or_pos columns with h0 | h0
      · rw [h0] at hv; simp at hv
      · exact h0
    have h1 : v / columns < rows := (Nat.div_lt_iff_lt_mul hpos).2 (by rw [Nat.mul_comm]; exact hv)
    simp only [cell, hx]
    exact hnew _ (List.mem_range.2 h1) _ (Nat.mod_lt _ hpos)

end BoggleBoard

/-! ## The search -/

theorem FindWords_succ (depth : Nat) (board : BoggleBoard) (currentWord : List Char)
    (lastVertex : Nat) (adjMat : AdjacencyMatrix) (dictionary : Trie) (sol : Finset (List Char)) :
    BoggleSolver.FindWords (depth + 1) board currentWord lastVertex adjMat dictionary sol =
      (List.range adjMat.Get_Vertices).foldlM
        (BoggleSolver.FindWords.body depth board currentWord lastVertex adjMat dictionary) sol := by
  rfl

theorem foldlM_post {α W : Type} [DecidableEq W] (f : Finset W → α → Option (Finset W))
    (G : W → Prop) (C : α → W → Prop) (l : List α)
    (hstep : ∀ a ∈ l, ∀ s, ∃ s1, f s a = some s1 ∧ s ⊆ s1 ∧ (∀ w ∈ s1, w ∈ s ∨ G w) ∧
      (∀ w, C a w → w ∈ s1)) (s : Finset W) :
    ∃ res, l.foldlM f s = some res ∧ s ⊆ res ∧ (∀ w ∈ res, w ∈ s ∨ G w) ∧
      (∀ a ∈ l, ∀ w, C a w → w ∈ res) := by
  induction l generalizing s with
  | nil => exact ⟨s, rfl, Finset.Subset.refl _, fun w hw => Or.inl hw, by simp⟩
  | cons a l ih =>
    obtain ⟨s1, hs1, hsub1, hsound1, hcomp1⟩ := hstep a (by simp) s
    obtain ⟨res, hres, hsub, hsound, hcomp⟩ := ih (fun b hb => hstep b (by simp [hb])) s1
    refine ⟨res, ?_, hsub1.trans hsub, ?_, ?_⟩
    · simp only [List.foldlM_cons, hs1, Option.bind_eq_bind, Option.some_bind]
      exact hres
    · intro w hw
      rcases hsound w hw with h | h
      · exact hsound1 w h
      · exact Or.inr h
    · intro b hb w hw
      rcases List.mem_cons.1 hb with hb | hb
      · subst hb; exact hsub (hcomp1 w hw)
      · exact hcomp b hb w hw

namespace BoggleBoard

theorem cell_eq_letter (b : BoggleBoard) (v : Nat) (h : AlphaCell (b.cell v)) :
    b.cell v = [b.letter v] ∧ isalpha (b.letter v) = true := by
  obtain ⟨c, hc, ha⟩ := h
  simp [letter, hc, ha]

theorem spell_eq_map (b : BoggleBoard) (path : List Nat)
    (h : ∀ v ∈ path, AlphaCell (b.cell v)) : b.spell path = path.map b.letter := by
  induction path with
  | nil => rfl
  | cons v p ih =>
    have := (cell_eq_letter b v (h v (by simp))).1
    simp only [spell, List.flatMap_cons, List.map_cons, this, List.singleton_append] at ih ⊢
    rw [ih (fun u hu => h u (by simp [hu]))]

theorem spell_append (b : BoggleBoard) (p q : List Nat) : b.spell (p ++ q) = b.spell p ++ b.spell q := by
  simp [spell, List.flatMap_append]

theorem spell_isalpha (b : BoggleBoard) (path : List Nat)
    (h : ∀ v ∈ path, AlphaCell (b.cell v)) : ∀ c ∈ b.spell path, isalpha c = true := by
  rw [spell_eq_map b path h]
  intro c hc
  obtain ⟨v, hv, rfl⟩ := List.mem_map.1 hc
  exact (cell_eq_letter b v (h v hv)).2

theorem spell_length_le (b : BoggleBoard) (path : List Nat) (n : Nat)
    (hlt : ∀ v ∈ path, v < n) (h : ∀ v ∈ path, AlphaCell (b.cell v))
    (hnd : (b.spell path).Nodup) : (b.spell path).length ≤ n ∧ path.Nodup := by
  rw [spell_eq_map b path h] at hnd ⊢
  have hp : path.Nodup := List.Nodup.of_map _ hnd
  have hsub : path ⊆ List.range n := fun v hv => List.mem_range.2 (hlt v hv)
  have := (hp.subperm hsub).length_le
  simp only [List.length_range, List.length_map] at this ⊢
  exact ⟨this, hp⟩

end BoggleBoard

namespace Trie

theorem anyChild_of_wordAt_append (n : Trie_node) (p q : List (Fin 26)) (hq : q ≠ [])
    (h : wordAt (walk n (p ++ q)) = true) : anyChild (walk n p) = true := by
  rw [anyChild_iff]
  cases q with
  | nil => exact absurd rfl hq
  | cons k q =>
    refine ⟨k, ?_⟩
    rw [walk_append] at h
    have : walk (walk n p) (k :: q) = walk (walk (walk n p) [k]) q := walk_append _ [k] q
    rw [this] at h
    cases hx : (walk (walk n p) [k]).isNull with
    | false => rfl
    | true =>
      rw [isNull_eq_true hx, walk_null] at h
      simp [wordAt] at h

theorem keys_append (s t : List Char) : keys (s ++ t) = keys s ++ keys t := by
  simp [keys]

end Trie

open Trie in
theorem body_eq {board : BoggleBoard} {adjMat : AdjacencyMatrix} {dictionary : Trie}
    (ctx : SearchCtx board adjMat dictionary) (depth : Nat) (cw : List Char) (lv v : Nat)
    (hcw : ∀ c ∈ cw, isalpha c = true) (hlv : lv < board.x * board.y) (hv : v < board.x * board.y)
    (sol : Finset (List Char)) :
    BoggleSolver.FindWords.body depth board cw lv adjMat dictionary sol v =
      if Adj board lv v ∧ board.letter v ∉ cw then
        (if anyChild (walk dictionary.rootNode (keys (cw ++ [board.letter v]))) = true then
          BoggleSolver.FindWords depth board (cw ++ [board.letter v]) v adjMat dictionary
            (if wordAt (walk dictionary.rootNode (keys (cw ++ [board.letter v]))) = true
              then insert (cw ++ [board.letter v]) sol else sol)
        else some (if wordAt (walk dictionary.rootNode (keys (cw ++ [board.letter v]))) = true
              then insert (cw ++ [board.letter v]) sol else sol))
      else some sol := by
  obtain ⟨hcell, halpha⟩ := board.cell_eq_letter v (ctx.cells v hv)
  obtain ⟨hpos, hget⟩ := board.position_of_vertex v hv
  have hw : ∀ c ∈ cw ++ [board.letter v], isalpha c = true := by
    intro c hc
    rcases List.mem_append.1 hc with h | h
    · exact hcw c h
    · rw [List.mem_singleton.1 h]; exact halpha
  simp only [BoggleSolver.FindWords.body, hpos, hget, ctx.adjacent lv v hlv hv, hcell,
    Option.bind_eq_bind, Option.some_bind, FindWord_eq dictionary ctx.root _ hw,
    isSubstring_eq dictionary ctx.root _ hw, Bool.and_eq_true, decide_eq_true_eq,
    string_find_singleton, Option.pure_def, Adj]

theorem OnPath.facts {board : BoggleBoard} {adjMat : AdjacencyMatrix} {dictionary : Trie}
    (ctx : SearchCtx board adjMat dictionary) {cw : List Char} {lv : Nat} (h : OnPath board cw lv) :
    lv < board.x * board.y ∧ (∀ c ∈ cw, isalpha c = true) ∧ cw.length ≤ board.x * board.y := by
  obtain ⟨init, hlt, _, hsp, hnd⟩ := h
  have hcells : ∀ v ∈ init ++ [lv], AlphaCell (board.cell v) := fun v hv => ctx.cells v (hlt v hv)
  refine ⟨hlt lv (by simp), ?_, ?_⟩
  · rw [hsp]; exact board.spell_isalpha _ hcells
  · rw [hsp] at hnd ⊢
    exact (board.spell_length_le _ _ hlt hcells hnd).1

theorem OnPath.extend {board : BoggleBoard} {adjMat : AdjacencyMatrix} {dictionary : Trie}
    (ctx : SearchCtx board adjMat dictionary) {cw : List Char} {lv v : Nat}
    (h : OnPath board cw lv) (hv : v < board.x * board.y) (hadj : Adj board lv v)
    (hnew : board.letter v ∉ cw) :
    OnPath board (cw ++ [board.letter v]) v ∧
      ∃ path : List Nat, path ≠ [] ∧ (∀ u ∈ path, u < board.x * board.y) ∧
        List.Chain' (Adj board) path ∧ cw ++ [board.letter v] = board.spell path ∧
        (cw ++ [board.letter v]).Nodup := by
  obtain ⟨init, hlt, hch, hsp, hnd⟩ := h
  have hlt2 : ∀ u ∈ (init ++ [lv]) ++ [v], u < board.x * board.y := by
    intro u hu
    rcases List.mem_append.1 hu with h1 | h1
    · exact hlt u h1
    · rw [List.mem_singleton.1 h1]; exact hv
  have hch2 : List.Chain' (Adj board) ((init ++ [lv]) ++ [v]) := by
    rw [List.chain'_append]
    refine ⟨hch, List.chain'_singleton _, ?_⟩
    intro x hx y hy
    simp at hx hy
    rw [← hx, ← hy]; exact hadj
  have hsp2 : cw ++ [board.letter v] = board.spell ((init ++ [lv]) ++ [v]) := by
    rw [board.spell_append, ← hsp]
    congr 1
    have := (board.cell_eq_letter v (ctx.cells v hv)).1
    simp [BoggleBoard.spell, this]
  have hnd2 : (cw ++ [board.letter v]).Nodup := by
    rw [List.nodup_append]
    exact ⟨hnd, List.nodup_singleton _, by
      intro a ha hb
      rw [List.mem_singleton.1 hb] at ha
      exact hnew ha⟩
  exact ⟨⟨init ++ [lv], hlt2, hch2, hsp2, hnd2⟩, (init ++ [lv]) ++ [v], by simp, hlt2, hch2, hsp2, hnd2⟩

open Trie in
/-- The result of `FindWords` from a state of the search whose recursion budget covers the cells
not yet used: it exists, keeps the words found before, adds only marked words that a path spells,
and adds every marked word that extends the current word along adjacent cells without repeating a
character. -/
theorem FindWords_post {board : BoggleBoard} {adjMat : AdjacencyMatrix} {dictionary : Trie}
    (ctx : SearchCtx board adjMat dictionary) (depth : Nat) :
    ∀ (cw : List Char) (lv : Nat) (sol : Finset (List Char)), OnPath board cw lv →
      board.x * board.y + 1 ≤ depth + cw.length →
      ∃ res, BoggleSolver.FindWords depth board cw lv adjMat dictionary sol = some res ∧
        sol ⊆ res ∧ (∀ w ∈ res, w ∈ sol ∨ Found board dictionary w) ∧
        (∀ v < board.x * board.y, ∀ w, Via board dictionary cw lv v w → w ∈ res) := by
  induction depth with
  | zero =>
    intro cw lv sol hinv hfuel
    have := (OnPath.facts ctx hinv).2.2
    omega
  | succ depth ih =>
    intro cw lv sol hinv hfuel
    obtain ⟨hlv, hcw, hlen⟩ := OnPath.facts ctx hinv
    rw [FindWords_succ, ctx.vertices_eq]
    obtain ⟨res, hres, hsub, hsound, hcomp⟩ := foldlM_post
      (BoggleSolver.FindWords.body depth board cw lv adjMat dictionary)
      (Found board dictionary) (Via board dictionary cw lv) (List.range (board.x * board.y))
      (by
        intro v hv s
        have hv : v < board.x * board.y := List.mem_range.1 hv
        obtain ⟨hcell, halpha⟩ := board.cell_eq_letter v (ctx.cells v hv)
        rw [body_eq ctx depth cw lv v hcw hlv hv s]
        by_cases hcond : Adj board lv v ∧ board.letter v ∉ cw
        · rw [if_pos hcond]
          obtain ⟨hon, path, hp1, hp2, hp3, hp4, hp5⟩ := OnPath.extend ctx hinv hv hcond.1 hcond.2
          -- the set after the test of `FindWord`
          have hs1 : ∀ w ∈ (if wordAt (walk dictionary.rootNode (keys (cw ++ [board.letter v]))) = true
              then insert (cw ++ [board.letter v]) s else s), w ∈ s ∨ Found board dictionary w := by
            intro w hw
            split at hw
            · rename_i hword
              rcases Finset.mem_insert.1 hw with h | h
              · right; rw [h]; exact ⟨hword, path, hp1, hp2, hp3, hp4, hp5⟩
              · exact Or.inl h
            · exact Or.inl hw
          have hs1sub : s ⊆ (if wordAt (walk dictionary.rootNode (keys (cw ++ [board.letter v]))) = true
              then insert (cw ++ [board.letter v]) s else s) := by
            split
            · exact Finset.subset_insert _ _
            · exact Finset.Subset.refl _
          -- a word through `v` with no further cell is the word tested here
          have hshort : ∀ w, w = cw ++ [board.letter v] →
              wordAt (walk dictionary.rootNode (keys w)) = true →
              w ∈ (if wordAt (walk dictionary.rootNode (keys (cw ++ [board.letter v]))) = true
                then insert (cw ++ [board.letter v]) s else s) := by
            intro w hw hword
            subst hw
            simp [hword]
          by_cases hsubs : anyChild (walk dictionary.rootNode (keys (cw ++ [board.letter v]))) = true
          · simp only [hsubs, if_true]
            obtain ⟨r, hr, hrsub, hrsound, hrcomp⟩ := ih (cw ++ [board.letter v]) v
              (if wordAt (walk dictionary.rootNode (keys (cw ++ [board.letter v]))) = true
                then insert (cw ++ [board.letter v]) s else s) hon
              (by simp only [List.length_append, List.length_singleton]; omega)
            refine ⟨r, hr, hs1sub.trans hrsub, ?_, ?_⟩
            · intro w hw
              rcases hrsound w hw with h | h
              · exact hs1 w h
              · exact Or.inr h
            · rintro w ⟨ext, hlt, hch, hw, hnd, hword⟩
              cases ext with
              | nil =>
                apply hrsub
                apply hshort w _ hword
                rw [hw]; simp [BoggleBoard.spell, hcell]
              | cons u ext =>
                apply hrcomp u (hlt u (by simp)) w
                refine ⟨ext, fun x hx => hlt x (by simp [hx]), ?_, ?_, hnd, hword⟩
                · rw [List.chain_cons] at hch; exact hch.2
                · rw [hw]
                  simp [BoggleBoard.spell, hcell]
          · simp only [hsubs, if_false]
            refine ⟨_, rfl, hs1sub, hs1, ?_⟩
            rintro w ⟨ext, hlt, hch, hw, hnd, hword⟩
            cases ext with
            | nil =>
              apply hshort w _ hword
              rw [hw]; simp [BoggleBoard.spell, hcell]
            | cons u ext =>
              exfalso
              apply hsubs
              have hu := (board.cell_eq_letter u (ctx.cells u (hlt u (by simp)))).1
              have hw2 : w = (cw ++ [board.letter v]) ++ (board.letter u :: board.spell ext) := by
                rw [hw]; simp [BoggleBoard.spell, hcell, hu]
              rw [hw2, keys_append] at hword
              exact anyChild_of_wordAt_append _ _ _ (by simp [keys]) hword
        · rw [if_neg hcond]
          refine ⟨s, rfl, Finset.Subset.refl _, fun w hw => Or.inl hw, ?_⟩
          rintro w ⟨ext, hlt, hch, hw, hnd, hword⟩
          exfalso
          apply hcond
          rw [List.chain_cons] at hch
          refine ⟨hch.1, ?_⟩
          intro hmem
          rw [hw] at hnd
          have : board.letter v ∈ board.spell (v :: ext) := by
            simp [BoggleBoard.spell, hcell]
          exact (List.nodup_append.1 hnd).2.2 hmem this) sol
    exact ⟨res, hres, hsub, hsound, fun v hv w hw => hcomp v (List.mem_range.2 hv) w hw⟩

theorem CheckAdjacent_table (board : BoggleBoard) (u v : Nat) (hu : u < board.x * board.y)
    (hv : v < board.x * board.y) :
    AdjacencyMatrix.CheckAdjacent ⟨(List.range (board.x * board.y)).map (fun i =>
      (List.range (board.x * board.y)).map (fun j => AdjacencyMatrix.entryVal board i j)),
      board.x * board.y⟩ u v = some (decide (AdjacencyMatrix.entryVal board u v = 1)) := by
  simp only [AdjacencyMatrix.CheckAdjacent, List.getElem?_map, List.getElem?_range hu,
    List.getElem?_range hv, Option.map_some', Option.bind_eq_bind, Option.some_bind]
  by_cases h : AdjacencyMatrix.entryVal board u v = 1 <;> simp [h]

open Trie in
/-- The result of `GetSolutions` on a dictionary file of letter-only lines and a board file that
loads: it exists, keeps the words of `SolutionWords`, adds only marked words that a path of
adjacent cells spells, and adds every marked word that such a path spells without repeating a
character. -/
theorem GetSolutions_post (self : BoggleSolver) (rows columns : Nat) (dictText : List Char)
    (words : List (List Char)) (hwords : fileLines dictText = words)
    (hws : ∀ w ∈ words, ∀ c ∈ w, isalpha c = true) (boardPath : Option (List Char))
    (board : BoggleBoard)
    (hB : (BoggleBoard.new rows columns).LoadBoard boardPath = some (true, board)) :
    ∃ res, self.GetSolutions rows columns (some dictText) boardPath = some res ∧
      self.SolutionWords ⊆ res ∧
      (∀ w ∈ res, w ∈ self.SolutionWords ∨ Found board ⟨insAll words Trie.new.rootNode⟩ w) ∧
      (∀ v ∈ List.range (board.x * board.y), ∀ w,
        TopVia board ⟨insAll words Trie.new.rootNode⟩ v w → w ∈ res) := by
  obtain ⟨hx, hy, hcells⟩ := BoggleBoard.LoadBoard_true rows columns boardPath board hB
  have hroot : (insAll words Trie.new.rootNode).isNull = false := insAll_isNull _ _ new_isNull
  have ctx : SearchCtx board ⟨(List.range (board.x * board.y)).map (fun i =>
      (List.range (board.x * board.y)).map (fun j => AdjacencyMatrix.entryVal board i j)),
      board.x * board.y⟩ ⟨insAll words Trie.new.rootNode⟩ :=
    ⟨rfl, CheckAdjacent_table board, hcells, hroot⟩
  unfold BoggleSolver.GetSolutions
  rw [LoadDictionary_fileLines, hwords, AddWords_eq words hws _ new_isNull]
  have hfold : List.foldl (fun n w => insPath w n) Trie.new.rootNode words
      = insAll words Trie.new.rootNode := rfl
  simp only [Option.bind_eq_bind, Option.some_bind, Bool.not_true, Bool.false_eq_true, if_false, hB,
    AdjacencyMatrix.new_eq, BoggleBoard.getX, BoggleBoard.getY, AdjacencyMatrix.Get_Vertices, hfold]
  apply foldlM_post _ (Found board ⟨insAll words Trie.new.rootNode⟩)
    (TopVia board ⟨insAll words Trie.new.rootNode⟩) (List.range (board.x * board.y))
  intro v hv s
  have hv : v < board.x * board.y := List.mem_range.1 hv
  obtain ⟨hcell, halpha⟩ := board.cell_eq_letter v (hcells v hv)
  obtain ⟨hpos, hget⟩ := board.position_of_vertex v hv
  have hw1 : ∀ c ∈ [board.letter v], isalpha c = true := by
    intro c hc; rw [List.mem_singleton.1 hc]; exact halpha
  simp only [hpos, hget, hcell, Option.some_bind,
    FindWord_eq ⟨insAll words Trie.new.rootNode⟩ hroot _ hw1]
  have hon : OnPath board [board.letter v] v :=
    ⟨[], by simpa using hv, by simp, by simp [BoggleBoard.spell, hcell], by simp⟩
  obtain ⟨r, hr, hrsub, hrsound, hrcomp⟩ := FindWords_post ctx (board.x * board.y)
    [board.letter v] v
    (if wordAt (walk (insAll words Trie.new.rootNode) (keys [board.letter v])) = true
      then insert [board.letter v] s else s) hon (by simp)
  refine ⟨r, hr, ?_, ?_, ?_⟩
  · refine Finset.Subset.trans ?_ hrsub
    split
    · exact Finset.subset_insert _ _
    · exact Finset.Subset.refl _
  · intro w hw
    rcases hrsound w hw with h | h
    · split at h
      · rename_i hword
        rcases Finset.mem_insert.1 h with h1 | h1
        · right
          rw [h1]
          exact ⟨hword, [v], by simp, by simpa using hv, by simp,
            by simp [BoggleBoard.spell, hcell], by simp⟩
        · exact Or.inl h1
      · exact Or.inl h
    · exact Or.inr h
  · rintro w ⟨ext, hlt, hch, hw, hnd, hword⟩
    cases ext with
    | nil =>
      apply hrsub
      have : w = [board.letter v] := by rw [hw]; simp [BoggleBoard.spell, hcell]
      rw [this] at hword ⊢
      simp [hword]
    | cons u ext =>
      apply hrcomp u (hlt u (by simp)) w
      refine ⟨ext, fun x hx => hlt x (by simp [hx]), hch, ?_, hnd, hword⟩
      rw [hw]
      simp [BoggleBoard.spell, hcell]

/-! ## More on insertion -/

namespace Trie

theorem wordAt_root_insAll (words : List (List Char)) (n : Trie_node) (hn : n.isNull = false) :
    wordAt (insAll words n) = wordAt n := by
  induction words generalizing n with
  | nil => rfl
  | cons w ws ih =>
    have h1 : insAll (w :: ws) n = insAll ws (insPath w n) := rfl
    rw [h1, ih _ (insPath_isNull w n hn)]
    have h := wordAt_insPath w n hn []
    simp only [walk_nil, hn, Bool.false_eq_true, and_false, or_false] at h
    rw [Bool.eq_iff_iff]
    exact h

theorem anyChild_insPath_mono (w : List Char) (n : Trie_node) (hn : n.isNull = false)
    (p : List (Fin 26)) (h : anyChild (walk n p) = true) :
    anyChild (walk (insPath w n) p) = true := by
  rw [anyChild_iff] at h ⊢
  obtain ⟨k, hk⟩ := h
  refine ⟨k, ?_⟩
  rw [← walk_append] at hk ⊢
  exact (present_insPath w n hn _).2 (Or.inl hk)

end Trie

/-! ## Every load and every call returns -/

namespace BoggleBoard

theorem string_at_le (str : List Char) (j : Nat) (hj : j ≤ str.length) :
    ∃ c, string_at str j = some c ∧ (isalpha c = true → j < str.length) := by
  by_cases h : j < str.length
  · refine ⟨str[j], ?_, fun _ => h⟩
    unfold string_at
    rw [dif_pos h]
  · have hjl : j = str.length := by omega
    refine ⟨Char.ofNat 0, ?_, fun ha => ?_⟩
    · unfold string_at
      rw [dif_neg h, if_pos hjl]
    · have hz : isalpha (Char.ofNat 0) = false := by decide
      rw [hz] at ha
      exact absurd ha (by simp)

theorem columnLoop_total (line : List Char) (i : Nat) (n : Nat) :
    ∀ (j : Nat) (b : BoggleBoard), i < b.y → j ≤ line.length → j + n ≤ b.x →
      ∃ ok b1, LoadBoard.columnLoop line i (List.range' j n) b = some (ok, b1) ∧
        b1.x = b.x ∧ b1.y = b.y := by
  induction n with
  | zero =>
    intro j b _ _ _
    exact ⟨true, b, rfl, rfl, rfl⟩
  | succ n ih =>
    intro j b hi hj hx
    obtain ⟨c, hc, hlt⟩ := string_at_le line j hj
    rw [List.range'_succ]
    simp only [LoadBoard.columnLoop, hc, Option.bind_eq_bind, Option.some_bind]
    cases ha : isalpha c with
    | false => exact ⟨false, b, by simp, rfl, rfl⟩
    | true =>
      have hset : b.setCell i j c
          = some ⟨fun r k => if r = i ∧ k = j then [c] else b.board r k, b.x, b.y⟩ := by
        have : i < b.y ∧ j < b.x := ⟨hi, by omega⟩
        simp [setCell, this]
      simp only [if_true, hset, Option.some_bind]
      have := hlt ha
      exact ih (j + 1) _ hi (by omega) (by simp only; omega)

theorem rowLoop_total (is : List Nat) :
    ∀ (file2 : ifstream) (line : List Char) (b : BoggleBoard), (∀ i ∈ is, i < b.y) →
      ∃ ok b1, LoadBoard.rowLoop is file2 line b = some (ok, b1) := by
  induction is with
  | nil => intro _ _ b _; exact ⟨true, b, rfl⟩
  | cons i is ih =>
    intro file2 line b hlt
    obtain ⟨ok, b1, hcol, hx, hy⟩ := columnLoop_total
      (remove_if isspace (getline file2 line).2) i b.x 0 b (hlt i (by simp)) (Nat.zero_le _)
      (by omega)
    rw [← List.range_eq_range'] at hcol
    simp only [LoadBoard.rowLoop, hcol, Option.bind_eq_bind, Option.some_bind]
    cases ok with
    | false => exact ⟨false, b1, by simp⟩
    | true =>
      simp only [if_true]
      exact ih _ _ b1 (fun k hk => by rw [hy]; exact hlt k (by simp [hk]))

theorem LoadBoard_total (rows columns : Nat) (boardPath : Option (List Char)) :
    ∃ ok b1, (BoggleBoard.new rows columns).LoadBoard boardPath = some (ok, b1) := by
  cases boardPath with
  | none => exact ⟨false, _, rfl⟩
  | some text =>
    exact rowLoop_total _ _ _ _ (fun i hi => by simpa [BoggleBoard.new] using hi)

end BoggleBoard

open Trie in
/-- The call of `GetSolutions` on any solver, with a dictionary file that cannot be opened or
whose lines are letter-only: it returns a set, which keeps the words of `SolutionWords` and adds
only strings without a repeated character. -/
theorem GetSolutions_total (self : BoggleSolver) (rows columns : Nat)
    (dictionaryPath boardPath : Option (List Char))
    (hdict : ∀ text, dictionaryPath = some text → ∀ w ∈ fileLines text, ∀ c ∈ w, isalpha c = true) :
    ∃ res, self.GetSolutions rows columns dictionaryPath boardPath = some res ∧
      self.SolutionWords ⊆ res ∧ ∀ w ∈ res, w ∈ self.SolutionWords ∨ w.Nodup := by
  cases dictionaryPath with
  | none => exact ⟨self.SolutionWords, rfl, Finset.Subset.refl _, fun w hw => Or.inl hw⟩
  | some text =>
    have hws := hdict text rfl
    obtain ⟨ok, board, hb⟩ := BoggleBoard.LoadBoard_total rows columns boardPath
    cases ok with
    | true =>
      obtain ⟨res, hres, hsub, hsound, _⟩ := GetSolutions_post self rows columns text
        (fileLines text) rfl hws boardPath board hb
      refine ⟨res, hres, hsub, fun w hw => ?_⟩
      rcases hsound w hw with h | h
      · exact Or.inl h
      · obtain ⟨_, path, _, _, _, _, hnd⟩ := h
        exact Or.inr hnd
    | false =>
      refine ⟨self.SolutionWords, ?_, Finset.Subset.refl _, fun w hw => Or.inl hw⟩
      unfold BoggleSolver.GetSolutions
      rw [LoadDictionary_fileLines, AddWords_eq _ hws _ new_isNull]
      simp [hb]

/-! ## The calls of the recursion -/

theorem OnPath_of_RecursiveCall {board : BoggleBoard} {adjMat : AdjacencyMatrix}
    {dictionary : Trie} (ctx : SearchCtx board adjMat dictionary) {caller callee : List Char × Nat}
    (hon : OnPath board caller.1 caller.2)
    (hcall : RecursiveCall board adjMat dictionary caller callee) :
    OnPath board callee.1 callee.2 := by
  obtain ⟨loc, letter, hv, hpos, hget, hadj, hfind, _, hcw⟩ := hcall
  rw [ctx.vertices_eq] at hv
  obtain ⟨hlv, _, _⟩ := OnPath.facts ctx hon
  obtain ⟨hpos2, hget2⟩ := board.position_of_vertex callee.2 hv
  obtain ⟨hcell, _⟩ := board.cell_eq_letter callee.2 (ctx.cells callee.2 hv)
  rw [hpos2] at hpos
  cases hpos
  rw [hget2, hcell] at hget
  cases hget
  rw [ctx.adjacent _ _ hlv hv] at hadj
  simp only [Option.some.injEq, decide_eq_true_eq] at hadj
  rw [string_find_singleton] at hfind
  rw [hcw]
  exact (OnPath.extend ctx hon hv hadj hfind).1

theorem OnPath_of_reachable {board : BoggleBoard} {adjMat : AdjacencyMatrix}
    {dictionary : Trie} (ctx : SearchCtx board adjMat dictionary) (start state : List Char × Nat)
    (hon : OnPath board start.1 start.2)
    (h : Relation.ReflTransGen (RecursiveCall board adjMat dictionary) start state) :
    OnPath board state.1 state.2 := by
  induction h with
  | refl => exact hon
  | tail _ hstep ih => exact OnPath_of_RecursiveCall ctx ih hstep

/-! ## What the board stores -/

namespace BoggleBoard

theorem columnLoop_read (line : List Char) (i : Nat) (js : List Nat) (b b1 : BoggleBoard)
    (h : LoadBoard.columnLoop line i js b = some (true, b1)) :
    (∀ r k, r ≠ i → b1.board r k = b.board r k) ∧
      (∀ j ∈ js, ∃ c, string_at line j = some c ∧ isalpha c = true ∧ b1.board i j = [c]) ∧
      (∀ k, (∃ c, string_at line k = some c ∧ b.board i k = [c]) →
        ∃ c, string_at line k = some c ∧ b1.board i k = [c]) := by
  induction js generalizing b with
  | nil =>
    simp only [LoadBoard.columnLoop, Option.some.injEq, Prod.mk.injEq, true_and] at h
    subst h
    exact ⟨fun _ _ _ => rfl, by simp, fun _ hk => hk⟩
  | cons j js ih =>
    simp only [LoadBoard.columnLoop, Option.bind_eq_bind] at h
    cases hc : string_at line j with
    | none => rw [hc] at h; simp at h
    | some c =>
      rw [hc] at h
      simp only [Option.some_bind] at h
      cases ha : isalpha c with
      | false => rw [ha] at h; simp at h
      | true =>
        rw [ha] at h
        simp only [if_true] at h
        cases hs : b.setCell i j c with
        | none => rw [hs] at h; simp at h
        | some b2 =>
          rw [hs] at h
          simp only [Option.some_bind] at h
          obtain ⟨hframe, hnew, hkeep⟩ := ih b2 h
          unfold setCell at hs
          split at hs
          · simp only [Option.some.injEq] at hs
            subst hs
            simp only at hframe hnew hkeep
            refine ⟨?_, ?_, ?_⟩
            · intro r k hr
              rw [hframe r k hr]
              simp [hr]
            · intro k hk
              rcases List.mem_cons.1 hk with hk | hk
              · subst hk
                obtain ⟨c1, hc1, hb1⟩ := hkeep k ⟨c, hc, by simp⟩
                rw [hc] at hc1
                cases hc1
                exact ⟨c, hc, ha, hb1⟩
              · exact hnew k hk
            · rintro k ⟨c1, hc1, hb⟩
              apply hkeep
              by_cases hkj : k = j
              · subst hkj
                exact ⟨c, hc, by simp⟩
              · exact ⟨c1, hc1, by simp [hkj, hb]⟩
          · simp at hs

theorem rowLoop_read (text : List Char) (n : Nat) :
    ∀ (k : Nat) (b b1 : BoggleBoard),
      LoadBoard.rowLoop (List.range' k n) (LoadBoard.lineState text k).1
        (LoadBoard.lineState text k).2 b = some (true, b1) →
      b1.x = b.x ∧ (∀ r j, r < k → b1.board r j = b.board r j) ∧
        (∀ i, k ≤ i → i < k + n → ∀ j < b.x, ∃ c,
          string_at (LoadBoard.lineOfRow text i) j = some c ∧ isalpha c = true ∧
          b1.board i j = [c]) := by
  induction n with
  | zero =>
    intro k b b1 h
    simp only [List.range'_zero, LoadBoard.rowLoop, Option.some.injEq, Prod.mk.injEq, true_and] at h
    subst h
    exact ⟨rfl, fun _ _ _ => rfl, fun i h1 h2 => by omega⟩
  | succ n ih =>
    intro k b b1 h
    rw [List.range'_succ] at h
    simp only [LoadBoard.rowLoop, Option.bind_eq_bind] at h
    cases hc : LoadBoard.columnLoop
        (remove_if isspace (getline (LoadBoard.lineState text k).1 (LoadBoard.lineState text k).2).2)
        k (List.range b.x) b with
    | none => rw [hc] at h; simp at h
    | some r =>
      obtain ⟨ok, b2⟩ := r
      rw [hc] at h
      simp only [Option.some_bind] at h
      cases ok with
      | false => simp at h
      | true =>
        simp only [if_true] at h
        obtain ⟨hx2, _, _, _⟩ := columnLoop_true _ _ _ _ _ hc
        obtain ⟨hframe2, hnew2, _⟩ := columnLoop_read _ _ _ _ _ hc
        have hstate : LoadBoard.lineState text (k + 1)
            = ((getline (LoadBoard.lineState text k).1 (LoadBoard.lineState text k).2).1,
               remove_if isspace
                (getline (LoadBoard.lineState text k).1 (LoadBoard.lineState text k).2).2) := rfl
        have h' : LoadBoard.rowLoop (List.range' (k + 1) n) (LoadBoard.lineState text (k + 1)).1
            (LoadBoard.lineState text (k + 1)).2 b2 = some (true, b1) := by
          rw [hstate]; exact h
        obtain ⟨hx, hframe, hnew⟩ := ih (k + 1) b2 b1 h'
        refine ⟨hx.trans hx2, ?_, ?_⟩
        · intro r j hr
          rw [hframe r j (by omega), hframe2 r j (by omega)]
        · intro i h1 h2 j hj
          by_cases hik : i = k
          · subst hik
            obtain ⟨c, hc1, ha, hb⟩ := hnew2 j (List.mem_range.2 hj)
            refine ⟨c, ?_, ha, ?_⟩
            · simp only [LoadBoard.lineOfRow, hstate]; exact hc1
            · rw [hframe i j (by omega)]; exact hb
          · exact hnew i (by omega) (by omega) j (by rw [hx2]; exact hj)

theorem LoadBoard_read (rows columns : Nat) (text : List Char) (board : BoggleBoard)
    (h : (BoggleBoard.new rows columns).LoadBoard (some text) = some (true, board)) :
    ∀ i < rows, ∀ j < columns, ∃ c,
      string_at (LoadBoard.lineOfRow text i) j = some c ∧ isalpha c = true ∧
      board.board i j = [c] := by
  simp only [LoadBoard, List.range_eq_range'] at h
  obtain ⟨_, _, hnew⟩ := rowLoop_read text (BoggleBoard.new rows columns).y 0 _ _ h
  intro i hi j hj
  exact hnew i (Nat.zero_le _) (by simpa [BoggleBoard.new] using hi) j
    (by simpa [BoggleBoard.new] using hj)

end BoggleBoard

/-! # The claims -/

open Trie AdjacencyMatrix

/-- C1 as stated fails: on the 1x2 board `aa` with the dictionary word `aa`, the word is marked in
the Trie and the cells 0 and 1 are adjacent, distinct and spell `aa`, yet `GetSolutions` returns
the empty set: the second `a` is skipped because `a` is already in the current word. -/
theorem C1_counterexample :
    BoggleSolver.new.GetSolutions 1 2 (some "aa\n".toList) (some "aa\n".toList) = some ∅ ∧
    fileLines "aa\n".toList = ["aa".toList] ∧
    (Trie.new.AddWords ["aa".toList]).bind (fun t => t.FindWord "aa".toList) = some true ∧
    ((BoggleBoard.new 1 2).LoadBoard (some "aa\n".toList)).map
      (fun r => (r.1, [0, 1].flatMap (fun v => r.2.board (v / 2) (v % 2))))
      = some (true, "aa".toList) ∧
    [0, 1].Nodup ∧
    List.Chain' (fun a b : Nat => a ≠ b ∧
      |((a / 2 : Nat) : Int) - ((b / 2 : Nat) : Int)| ≤ 1 ∧
      |((a % 2 : Nat) : Int) - ((b % 2 : Nat) : Int)| ≤ 1) [0, 1] := by
  refine ⟨?_, by decide, by decide, by decide, by decide, ?_⟩
  · apply eq_some_of_map_decide
    unfold BoggleSolver.GetSolutions
    rw [LoadDictionary_fileLines]
    decide
  · simp only [List.chain'_cons, List.chain'_singleton, and_true]
    decide

/-- C1 amended: for a fresh solver, a dictionary file of letter-only words (one per line) and a
board file that `LoadBoard` accepts, a dictionary word `w` that is not a proper prefix (letter
case apart) of a word listed before it, that holds no character twice, and that is spelled by a
non-empty sequence of cells of the loaded board in which consecutive cells are adjacent, is a
member of the set that `GetSolutions` returns. -/
theorem C1_complete_without_repeated_letter (rows columns : Nat) (dictText : List Char)
    (pre post : List (List Char)) (w : List Char) (boardPath : Option (List Char))
    (path : List Nat)
    (hlines : fileLines dictText = pre ++ w :: post)
    (hws : ∀ v ∈ pre ++ w :: post, ∀ c ∈ v, isalpha c = true)
    (hfirst : ∀ v ∈ pre, w.map tolower <+: v.map tolower → v.map tolower = w.map tolower)
    (hB : ((BoggleBoard.new rows columns).LoadBoard boardPath).map
      (fun r => (r.1, path.flatMap (fun v => r.2.board (v / columns) (v % columns))))
      = some (true, w))
    (hne : path ≠ []) (hlt : ∀ v ∈ path, v < rows * columns)
    (hadj : List.Chain' (fun a b => a ≠ b ∧
      |((a / columns : Nat) : Int) - ((b / columns : Nat) : Int)| ≤ 1 ∧
      |((a % columns : Nat) : Int) - ((b % columns : Nat) : Int)| ≤ 1) path)
    (hnd : w.Nodup) :
    ∃ res, BoggleSolver.new.GetSolutions rows columns (some dictText) boardPath = some res ∧
      w ∈ res := by
  cases hb : (BoggleBoard.new rows columns).LoadBoard boardPath with
  | none => rw [hb] at hB; simp at hB
  | some r =>
    obtain ⟨ok, board⟩ := r
    rw [hb] at hB
    simp only [Option.map_some', Option.some.injEq, Prod.mk.injEq] at hB
    obtain ⟨hok, hsp⟩ := hB
    subst hok
    obtain ⟨hx, hy, hcells⟩ := BoggleBoard.LoadBoard_true rows columns boardPath board hb
    obtain ⟨res, hres, _, _, hcomp⟩ := GetSolutions_post BoggleSolver.new rows columns dictText
      (pre ++ w :: post) hlines hws boardPath board hb
    refine ⟨res, hres, ?_⟩
    have hlt2 : ∀ v ∈ path, v < board.x * board.y := by
      intro v hv
      rw [hx, hy, Nat.mul_comm]; exact hlt v hv
    have hsp2 : w = board.spell path := by
      rw [← hsp, ← hx]; rfl
    have hwa : ∀ c ∈ w, isalpha c = true := hws w (by simp)
    -- the Trie marks `w`
    have hword : wordAt (walk (insAll (pre ++ w :: post) Trie.new.rootNode) (keys w)) = true := by
      apply wordAt_insAll_first pre w post _ new_isNull
      · cases hn : (walk Trie.new.rootNode (keys w)).isNull with
        | true => rfl
        | false =>
          have hk : keys w = [] := (walk_new _).1 hn
          have : w = [] := by simpa [keys] using hk
          rw [this] at hsp2
          cases path with
          | nil => exact absurd rfl hne
          | cons v p =>
            have := (board.cell_eq_letter v (hcells v (hlt2 v (by simp)))).1
            simp [BoggleBoard.spell, this] at hsp2
      · intro v hv hp
        have hva : ∀ c ∈ v, isalpha c = true := hws v (by simp [hv])
        exact (keys_eq_iff v w hva hwa).2 (hfirst v hv ((keys_prefix_iff w v hwa hva).1 hp))
    cases path with
    | nil => exact absurd rfl hne
    | cons v ext =>
      apply hcomp v (List.mem_range.2 (hlt2 v (by simp))) w
      refine ⟨ext, hlt2, ?_, hsp2, hnd, hword⟩
      refine List.Chain'.imp ?_ hadj
      intro a b hab
      apply (entryVal_eq_one board a b).2
      rw [hx]; exact hab

theorem C1_complete_without_repeated_letter_witness :
    ∃ res, BoggleSolver.new.GetSolutions 2 2 (some "cat\ncats\nat\nas\n".toList)
      (some "ca\nts\n".toList) = some res ∧ "cats".toList ∈ res :=
  C1_complete_without_repeated_letter 2 2 "cat\ncats\nat\nas\n".toList ["cat".toList]
    ["at".toList, "as".toList] "cats".toList (some "ca\nts\n".toList) [0, 1, 2, 3]
    (by decide) (by decide) (by decide) (by decide) (by decide) (by decide)
    (by simp only [List.chain'_cons, List.chain'_singleton, and_true]; decide) (by decide)

/-- C2: for a fresh solver, a dictionary file of letter-only words (one per line) and a board file
that `LoadBoard` accepts, `GetSolutions` returns a set, and every string of it is, lower-cased, a
lower-cased word of the dictionary and is spelled by a non-empty sequence of cells of the loaded
board in which consecutive cells are adjacent and no cell occurs twice. -/
theorem C2_search_sound (rows columns : Nat) (dictText : List Char)
    (boardPath : Option (List Char))
    (hws : ∀ w ∈ fileLines dictText, ∀ c ∈ w, isalpha c = true)
    (hB : ((BoggleBoard.new rows columns).LoadBoard boardPath).map Prod.fst = some true) :
    ∃ board res, (BoggleBoard.new rows columns).LoadBoard boardPath = some (true, board) ∧
      BoggleSolver.new.GetSolutions rows columns (some dictText) boardPath = some res ∧
      ∀ w ∈ res, (∃ v ∈ fileLines dictText, w.map tolower = v.map tolower) ∧
        ∃ path : List Nat, path ≠ [] ∧ (∀ v ∈ path, v < rows * columns) ∧ path.Nodup ∧
          List.Chain' (fun a b => a ≠ b ∧
            |((a / columns : Nat) : Int) - ((b / columns : Nat) : Int)| ≤ 1 ∧
            |((a % columns : Nat) : Int) - ((b % columns : Nat) : Int)| ≤ 1) path ∧
          w = path.flatMap (fun v => board.board (v / columns) (v % columns)) := by
  cases hb : (BoggleBoard.new rows columns).LoadBoard boardPath with
  | none => rw [hb] at hB; simp at hB
  | some r =>
    obtain ⟨ok, board⟩ := r
    rw [hb] at hB
    simp only [Option.map_some', Option.some.injEq] at hB
    subst hB
    obtain ⟨hx, hy, hcells⟩ := BoggleBoard.LoadBoard_true rows columns boardPath board hb
    obtain ⟨res, hres, _, hsound, _⟩ := GetSolutions_post BoggleSolver.new rows columns dictText
      (fileLines dictText) rfl hws boardPath board hb
    refine ⟨board, res, rfl, hres, fun w hw => ?_⟩
    rcases hsound w hw with h | ⟨hword, path, hne, hlt, hch, hsp, hnd⟩
    · simp [BoggleSolver.new] at h
    · have hpc : ∀ v ∈ path, AlphaCell (board.cell v) := fun v hv => hcells v (hlt v hv)
      have hwa : ∀ c ∈ w, isalpha c = true := by rw [hsp]; exact board.spell_isalpha path hpc
      refine ⟨?_, path, hne, ?_, ?_, ?_, ?_⟩
      · obtain ⟨v, hv, hk⟩ := FindWord_loaded (fileLines dictText) w hword
        exact ⟨v, hv, (keys_eq_iff w v hwa (hws v hv)).1 hk⟩
      · intro v hv
        have := hlt v hv
        rw [hx, hy, Nat.mul_comm] at this
        exact this
      · rw [hsp] at hnd
        exact (board.spell_length_le path _ hlt hpc hnd).2
      · refine List.Chain'.imp ?_ hch
        intro a b hab
        have := (entryVal_eq_one board a b).1 hab
        rw [hx] at this
        exact this
      · rw [hsp, ← hx]
        rfl

theorem C2_search_sound_witness :
    ∃ board res, (BoggleBoard.new 2 2).LoadBoard (some "ca\nts\n".toList) = some (true, board) ∧
      BoggleSolver.new.GetSolutions 2 2 (some "cat\ncats\nat\nas\n".toList)
        (some "ca\nts\n".toList) = some res ∧
      ∀ w ∈ res, (∃ v ∈ fileLines "cat\ncats\nat\nas\n".toList,
          w.map tolower = v.map tolower) ∧
        ∃ path : List Nat, path ≠ [] ∧ (∀ v ∈ path, v < 2 * 2) ∧ path.Nodup ∧
          List.Chain' (fun a b => a ≠ b ∧
            |((a / 2 : Nat) : Int) - ((b / 2 : Nat) : Int)| ≤ 1 ∧
            |((a % 2 : Nat) : Int) - ((b % 2 : Nat) : Int)| ≤ 1) path ∧
          w = path.flatMap (fun v => board.board (v / 2) (v % 2)) :=
  C2_search_sound 2 2 "cat\ncats\nat\nas\n".toList (some "ca\nts\n".toList)
    (by decide) (by decide)

/-- C3 (scenario 1): with the dictionary file `cat`, `cats`, `at`, `as` (one word per line) and
the 2x2 board file with the rows `ca` and `ts`, `GetSolutions` on a fresh solver returns exactly
the set of `cat`, `cats`, `at` and `as`. -/
theorem C3_scenario_1 :
    BoggleSolver.new.GetSolutions 2 2 (some "cat\ncats\nat\nas\n".toList) (some "ca\nts\n".toList)
      = some {"cat".toList, "cats".toList, "at".toList, "as".toList} := by
  apply eq_some_of_map_decide
  unfold BoggleSolver.GetSolutions
  rw [LoadDictionary_fileLines]
  decide

/-- C4 (defect): after `Addword("cats")` and `Addword("cat")` on a fresh Trie, `FindWord("cat")`
is false: the loaded word `cat` is not found, because `Addword` sets `isWord` only on a node that
it creates and the node of `cat` exists already. -/
theorem C4_prefix_of_earlier_word_not_found :
    (Trie.new.AddWords ["cats".toList, "cat".toList]).bind (fun t => t.FindWord "cat".toList)
      = some false := by
  decide

/-- C5: for words of ASCII letters inserted with `Addword` into a fresh Trie and a query `s` of
ASCII letters, the insertions and the query succeed, and if `FindWord(s)` is true then the
lower-cased `s` is the lower-cased form of a word of the sequence. -/
theorem C5_only_loaded_words_found (words : List (List Char)) (s : List Char)
    (hws : ∀ w ∈ words, ∀ c ∈ w, isalpha c = true) (hs : ∀ c ∈ s, isalpha c = true) :
    ∃ t b, Trie.new.AddWords words = some t ∧ t.FindWord s = some b ∧
      (b = true → ∃ w ∈ words, s.map tolower = w.map tolower) := by
  obtain ⟨t, ht, hroot, hnull⟩ := AddWords_new words hws
  refine ⟨t, _, ht, FindWord_eq t hnull s hs, fun hb => ?_⟩
  rw [hroot] at hb
  obtain ⟨w, hw, hk⟩ := FindWord_loaded words s hb
  exact ⟨w, hw, (keys_eq_iff s w hs (hws w hw)).1 hk⟩

theorem C5_only_loaded_words_found_witness :
    ∃ t b, Trie.new.AddWords ["cat".toList, "Dog".toList] = some t ∧
      t.FindWord "DOG".toList = some b ∧
      (b = true → ∃ w ∈ ["cat".toList, "Dog".toList], "DOG".toList.map tolower = w.map tolower) :=
  C5_only_loaded_words_found ["cat".toList, "Dog".toList] "DOG".toList (by decide) (by decide)

/-- C6: for words of ASCII letters inserted with `Addword` into a fresh Trie and a query `s` of
ASCII letters, `isSubstring(s)` is true exactly when some word of the sequence, lower-cased, is
strictly longer than `s` and begins with the lower-cased `s`.  With only `cat` loaded,
`isSubstring` is true for `c` and `ca` while `FindWord` is false for both. -/
theorem C6_isSubstring_exact (words : List (List Char)) (s : List Char)
    (hws : ∀ w ∈ words, ∀ c ∈ w, isalpha c = true) (hs : ∀ c ∈ s, isalpha c = true) :
    (∃ t b, Trie.new.AddWords words = some t ∧ t.isSubstring s = some b ∧
      (b = true ↔ ∃ w ∈ words, s.map tolower <+: w.map tolower ∧ s.length < w.length)) ∧
    (∃ t, Trie.new.AddWords ["cat".toList] = some t ∧
      t.isSubstring "c".toList = some true ∧ t.isSubstring "ca".toList = some true ∧
      t.FindWord "c".toList = some false ∧ t.FindWord "ca".toList = some false) := by
  constructor
  · obtain ⟨t, ht, hroot, hnull⟩ := AddWords_new words hws
    refine ⟨t, _, ht, isSubstring_eq t hnull s hs, ?_⟩
    rw [hroot, anyChild_loaded]
    constructor
    · rintro ⟨w, hw, hp, hl⟩
      exact ⟨w, hw, (keys_prefix_iff s w hs (hws w hw)).1 hp, hl⟩
    · rintro ⟨w, hw, hp, hl⟩
      exact ⟨w, hw, (keys_prefix_iff s w hs (hws w hw)).2 hp, hl⟩
  · obtain ⟨t, ht, hroot, hnull⟩ := AddWords_new ["cat".toList] (by decide)
    refine ⟨t, ht, ?_, ?_, ?_, ?_⟩
    · rw [isSubstring_eq t hnull _ (by decide), hroot]; decide
    · rw [isSubstring_eq t hnull _ (by decide), hroot]; decide
    · rw [FindWord_eq t hnull _ (by decide), hroot]; decide
    · rw [FindWord_eq t hnull _ (by decide), hroot]; decide

theorem C6_isSubstring_exact_witness :
    (∃ t b, Trie.new.AddWords ["cat".toList, "Dog".toList] = some t ∧
      t.isSubstring "do".toList = some b ∧
      (b = true ↔ ∃ w ∈ ["cat".toList, "Dog".toList],
        "do".toList.map tolower <+: w.map tolower ∧ "do".toList.length < w.length)) ∧
    (∃ t, Trie.new.AddWords ["cat".toList] = some t ∧
      t.isSubstring "c".toList = some true ∧ t.isSubstring "ca".toList = some true ∧
      t.FindWord "c".toList = some false ∧ t.FindWord "ca".toList = some false) :=
  C6_isSubstring_exact ["cat".toList, "Dog".toList] "do".toList (by decide) (by decide)

/-- C7 as stated fails: with only `cat` loaded, `isSubstring("cat")` is false although the loaded
word `cat` has `cat` as a (full) prefix. -/
theorem C7_counterexample :
    (Trie.new.AddWords ["cat".toList]).bind (fun t => t.isSubstring "cat".toList) = some false ∧
    "cat".toList ∈ ["cat".toList] ∧
    "cat".toList.map tolower <+: "cat".toList.map tolower := by
  decide

/-- C7 amended: for words of ASCII letters inserted with `Addword` into a fresh Trie and a query
`s` of ASCII letters, if `isSubstring(s)` is false then no word of the sequence, lower-cased, is
strictly longer than `s` and begins with the lower-cased `s`. -/
theorem C7_pruning_sound_for_proper_prefixes (words : List (List Char)) (s : List Char)
    (hws : ∀ w ∈ words, ∀ c ∈ w, isalpha c = true) (hs : ∀ c ∈ s, isalpha c = true) :
    ∃ t b, Trie.new.AddWords words = some t ∧ t.isSubstring s = some b ∧
      (b = false → ∀ w ∈ words, ¬ (s.map tolower <+: w.map tolower ∧ s.length < w.length)) := by
  obtain ⟨t, ht, hroot, hnull⟩ := AddWords_new words hws
  refine ⟨t, _, ht, isSubstring_eq t hnull s hs, fun hb w hw hp => ?_⟩
  rw [hroot] at hb
  have : anyChild (walk (insAll words Trie.new.rootNode) (keys s)) = true :=
    (anyChild_loaded words s).2 ⟨w, hw, (keys_prefix_iff s w hs (hws w hw)).2 hp.1, hp.2⟩
  rw [hb] at this
  exact absurd this (by simp)

theorem C7_pruning_sound_for_proper_prefixes_witness :
    ∃ t b, Trie.new.AddWords ["cat".toList] = some t ∧ t.isSubstring "cat".toList = some b ∧
      (b = false → ∀ w ∈ ["cat".toList],
        ¬ ("cat".toList.map tolower <+: w.map tolower ∧ "cat".toList.length < w.length)) :=
  C7_pruning_sound_for_proper_prefixes ["cat".toList] "cat".toList (by decide) (by decide)

/-- C8: for a Trie built from a fresh Trie by `Addword` calls on words of ASCII letters and a word
`w` of ASCII letters, inserting `w` twice in a row gives a Trie on which `FindWord` and
`isSubstring` answer every query of ASCII letters as on the Trie with `w` inserted once. -/
theorem C8_idempotent_load (words : List (List Char)) (w s : List Char)
    (hws : ∀ v ∈ words, ∀ c ∈ v, isalpha c = true) (hw : ∀ c ∈ w, isalpha c = true)
    (hs : ∀ c ∈ s, isalpha c = true) :
    ∃ t t1 t2 b1 b2, Trie.new.AddWords words = some t ∧ t.Addword w = some t1 ∧
      t1.Addword w = some t2 ∧ t1.FindWord s = some b1 ∧ t2.FindWord s = some b1 ∧
      t1.isSubstring s = some b2 ∧ t2.isSubstring s = some b2 := by
  obtain ⟨t, ht, hroot, hnull⟩ := AddWords_new words hws
  have h1null := insPath_isNull w _ hnull
  have h2null := insPath_isNull w _ h1null
  have hpres : ∀ p, (walk (insPath w (insPath w t.rootNode)) p).isNull
      = (walk (insPath w t.rootNode) p).isNull := by
    intro p
    have h2 := present_insPath w _ h1null p
    have h1 := present_insPath w _ hnull p
    cases hx : (walk (insPath w (insPath w t.rootNode)) p).isNull <;>
      cases hy : (walk (insPath w t.rootNode) p).isNull <;> simp_all
  have hword : ∀ p, wordAt (walk (insPath w (insPath w t.rootNode)) p)
      = wordAt (walk (insPath w t.rootNode) p) := by
    intro p
    have h2 := wordAt_insPath w _ h1null p
    have hself : (walk (insPath w t.rootNode) (keys w)).isNull = false :=
      (present_insPath w _ hnull (keys w)).2 (Or.inr List.prefix_rfl)
    rw [Bool.eq_iff_iff]
    constructor
    · intro h
      rcases h2.1 h with h3 | ⟨hp, hn⟩
      · exact h3
      · rw [hp, hself] at hn; simp at hn
    · exact fun h => h2.2 (Or.inl h)
  have hany : anyChild (walk (insPath w (insPath w t.rootNode)) (keys s))
      = anyChild (walk (insPath w t.rootNode) (keys s)) := by
    have e : ∀ n m : Trie_node, (∀ k : Fin 26, (walk n [k]).isNull = (walk m [k]).isNull) →
        (anyChild n = true ↔ anyChild m = true) := by
      intro n m h
      simp only [anyChild_iff, h]
    have := e (walk (insPath w (insPath w t.rootNode)) (keys s))
      (walk (insPath w t.rootNode) (keys s))
      (fun k => by rw [← walk_append, ← walk_append]; exact hpres _)
    cases hx : anyChild (walk (insPath w (insPath w t.rootNode)) (keys s)) <;>
      cases hy : anyChild (walk (insPath w t.rootNode) (keys s)) <;> simp_all
  refine ⟨t, ⟨insPath w t.rootNode⟩, ⟨insPath w (insPath w t.rootNode)⟩, _, _, ht,
    Addword_eq t hnull w hw, Addword_eq _ h1null w hw, FindWord_eq _ h1null s hs, ?_,
    isSubstring_eq _ h1null s hs, ?_⟩
  · rw [FindWord_eq _ h2null s hs]; exact congrArg some (hword _)
  · rw [isSubstring_eq _ h2null s hs]; exact congrArg some hany

theorem C8_idempotent_load_witness :
    ∃ t t1 t2 b1 b2, Trie.new.AddWords ["cats".toList] = some t ∧
      t.Addword "cat".toList = some t1 ∧
      t1.Addword "cat".toList = some t2 ∧ t1.FindWord "cat".toList = some b1 ∧
      t2.FindWord "cat".toList = some b1 ∧
      t1.isSubstring "cat".toList = some b2 ∧ t2.isSubstring "cat".toList = some b2 :=
  C8_idempotent_load ["cats".toList] "cat".toList "cat".toList (by decide) (by decide) (by decide)

/-- C9: for a board with at least one row and one column and vertices `i`, `j` below the cell
count, the constructor of `AdjacencyMatrix` succeeds and `CheckAdjacent(i, j)` is true exactly when
`i != j` and the rows `i / columns`, `j / columns` and the columns `i % columns`, `j % columns`
each differ by at most 1; `CheckAdjacent(i, i)` is false. -/
theorem C9_adjacency_correct (board : BoggleBoard) (i j : Nat)
    (hrows : 1 ≤ board.getY) (hcolumns : 1 ≤ board.getX)
    (hi : i < board.getY * board.getX) (hj : j < board.getY * board.getX) :
    ∃ m r, AdjacencyMatrix.new board = some m ∧ m.CheckAdjacent i j = some r ∧
      (r = true ↔ i ≠ j ∧
        |((i / board.getX : Nat) : Int) - ((j / board.getX : Nat) : Int)| ≤ 1 ∧
        |((i % board.getX : Nat) : Int) - ((j % board.getX : Nat) : Int)| ≤ 1) ∧
      m.CheckAdjacent i i = some false := by
  simp only [BoggleBoard.getX, BoggleBoard.getY] at *
  rw [Nat.mul_comm] at hi hj
  obtain ⟨m, hm, _, hr⟩ := CheckAdjacent_new board i j hi hj
  obtain ⟨m1, hm1, _, hr1⟩ := CheckAdjacent_new board i i hi hi
  rw [hm] at hm1
  cases hm1
  refine ⟨m, _, hm, hr, ?_, ?_⟩
  · rw [decide_eq_true_eq]; exact entryVal_eq_one board i j
  · rw [hr1]; simp [entryVal]

theorem C9_adjacency_correct_witness :
    ∃ m r, AdjacencyMatrix.new (BoggleBoard.new 2 3) = some m ∧ m.CheckAdjacent 1 5 = some r ∧
      (r = true ↔ 1 ≠ 5 ∧
        |((1 / (BoggleBoard.new 2 3).getX : Nat) : Int) - ((5 / (BoggleBoard.new 2 3).getX : Nat) : Int)| ≤ 1 ∧
        |((1 % (BoggleBoard.new 2 3).getX : Nat) : Int) - ((5 % (BoggleBoard.new 2 3).getX : Nat) : Int)| ≤ 1) ∧
      m.CheckAdjacent 1 1 = some false :=
  C9_adjacency_correct (BoggleBoard.new 2 3) 1 5 (by decide) (by decide) (by decide) (by decide)

/-- C10: when the dictionary file cannot be opened, and when `LoadDictionary` returns true but
`LoadBoard` returns false, `GetSolutions` hands back `SolutionWords` as it was before the call
(nothing is searched or added), which is the empty set for a freshly constructed solver. -/
theorem C10_load_failure_gives_empty (self : BoggleSolver) (rows columns : Nat)
    (dictionaryPath boardPath : Option (List Char))
    (h : dictionaryPath = none ∨
      ((Trie.new.LoadDictionary dictionaryPath).map Prod.fst = some true ∧
       ((BoggleBoard.new rows columns).LoadBoard boardPath).map Prod.fst = some false)) :
    self.GetSolutions rows columns dictionaryPath boardPath = some self.SolutionWords ∧
      BoggleSolver.new.GetSolutions rows columns dictionaryPath boardPath = some ∅ := by
  have key : ∀ s : BoggleSolver,
      s.GetSolutions rows columns dictionaryPath boardPath = some s.SolutionWords := by
    intro s
    rcases h with h | ⟨hD, hB⟩
    · subst h
      rfl
    · unfold BoggleSolver.GetSolutions
      cases hd : Trie.new.LoadDictionary dictionaryPath with
      | none => rw [hd] at hD; simp at hD
      | some rd =>
        obtain ⟨okD, dictionary⟩ := rd
        rw [hd] at hD
        simp only [Option.map_some', Option.some.injEq] at hD
        subst hD
        cases hb : (BoggleBoard.new rows columns).LoadBoard boardPath with
        | none => rw [hb] at hB; simp at hB
        | some rb =>
          obtain ⟨okB, board⟩ := rb
          rw [hb] at hB
          simp only [Option.map_some', Option.some.injEq] at hB
          subst hB
          rfl
  exact ⟨key self, key BoggleSolver.new⟩

theorem C10_load_failure_gives_empty_witness :
    BoggleSolver.new.GetSolutions 1 1 (some "a\n".toList) (some "1\n".toList)
        = some BoggleSolver.new.SolutionWords ∧
      BoggleSolver.new.GetSolutions 1 1 (some "a\n".toList) (some "1\n".toList) = some ∅ :=
  C10_load_failure_gives_empty BoggleSolver.new 1 1 (some "a\n".toList) (some "1\n".toList)
    (Or.inr ⟨by
      rw [LoadDictionary_fileLines]
      decide, by decide⟩)

/-- C11 as stated fails: the 1x1 board file `A` loads, and the stored cell is the upper-case `A`,
which `tolower` would change. -/
theorem C11_counterexample :
    ((BoggleBoard.new 1 1).LoadBoard (some "A\n".toList)).map (fun r => (r.1, r.2.board 0 0))
      = some (true, ['A']) ∧ tolower 'A' = 'a' ∧ ('A' : Char) ≠ 'a' := by
  decide

/-- C11 amended: for every board text and dimensions for which `LoadBoard` returns success, every
stored cell `board[i][j]` holds exactly the character `line[j]` of the string that `getline` and
`remove_if` left in `line` for row `i`, unchanged, and that character is an ASCII letter, `a`-`z`
or `A`-`Z`: letters are stored as read and are not lower-cased (the board file `Ab` gives the
cells `A` and `b`). -/
theorem C11_cells_stored_as_read (rows columns : Nat) (boardPath : Option (List Char))
    (hB : ((BoggleBoard.new rows columns).LoadBoard boardPath).map Prod.fst = some true) :
    (∃ text board, boardPath = some text ∧
      (BoggleBoard.new rows columns).LoadBoard boardPath = some (true, board) ∧
      ∀ i < rows, ∀ j < columns, ∃ c,
        string_at (BoggleBoard.LoadBoard.lineOfRow text i) j = some c ∧
        board.board i j = [c] ∧
        ((65 ≤ c.toNat ∧ c.toNat ≤ 90) ∨ (97 ≤ c.toNat ∧ c.toNat ≤ 122))) ∧
    (BoggleBoard.LoadBoard.lineOfRow "Ab\n".toList 0 = "Ab".toList ∧
      ((BoggleBoard.new 1 2).LoadBoard (some "Ab\n".toList)).map
        (fun r => (r.1, r.2.board 0 0, r.2.board 0 1)) = some (true, ['A'], ['b'])) := by
  refine ⟨?_, by decide, by decide⟩
  cases boardPath with
  | none => simp [BoggleBoard.LoadBoard] at hB
  | some text =>
    cases hb : (BoggleBoard.new rows columns).LoadBoard (some text) with
    | none => rw [hb] at hB; simp at hB
    | some r =>
      obtain ⟨ok, board⟩ := r
      rw [hb] at hB
      simp only [Option.map_some', Option.some.injEq] at hB
      subst hB
      refine ⟨text, board, rfl, rfl, fun i hi j hj => ?_⟩
      obtain ⟨c, hc, ha, hcell⟩ := BoggleBoard.LoadBoard_read rows columns text board hb i hi j hj
      exact ⟨c, hc, hcell, (isalpha_iff c).1 ha⟩

theorem C11_cells_stored_as_read_witness :
    (∃ text board, some "Ca\ntS\n".toList = some text ∧
      (BoggleBoard.new 2 2).LoadBoard (some "Ca\ntS\n".toList) = some (true, board) ∧
      ∀ i < 2, ∀ j < 2, ∃ c,
        string_at (BoggleBoard.LoadBoard.lineOfRow text i) j = some c ∧
        board.board i j = [c] ∧
        ((65 ≤ c.toNat ∧ c.toNat ≤ 90) ∨ (97 ≤ c.toNat ∧ c.toNat ≤ 122))) ∧
    (BoggleBoard.LoadBoard.lineOfRow "Ab\n".toList 0 = "Ab".toList ∧
      ((BoggleBoard.new 1 2).LoadBoard (some "Ab\n".toList)).map
        (fun r => (r.1, r.2.board 0 0, r.2.board 0 1)) = some (true, ['A'], ['b'])) :=
  C11_cells_stored_as_read 2 2 (some "Ca\ntS\n".toList) (by decide)

/-- C12: on a board with at least one row and one column, for a vertex `i` below the cell count,
`Vertex_To_BoardPosition(i)` returns a position whose row `x` is below the row count, whose column
`y` is below the column count and whose flattened index `x * columns + y` is `i`; `GetLetter` on it
reads the cell `board[x][y]` inside the table. -/
theorem C12_vertex_to_position (board : BoggleBoard) (i : Nat)
    (hrows : 1 ≤ board.getY) (hcolumns : 1 ≤ board.getX) (hi : i < board.getY * board.getX) :
    ∃ p, board.Vertex_To_BoardPosition i = some p ∧ p.x < board.getY ∧ p.y < board.getX ∧
      p.x * board.getX + p.y = i ∧ board.GetLetter p = some (board.board p.x p.y) := by
  simp only [BoggleBoard.getX, BoggleBoard.getY] at *
  have hx : board.x ≠ 0 := by omega
  have h1 : i / board.x < board.y := (Nat.div_lt_iff_lt_mul (by omega)).2 hi
  have h2 : i % board.x < board.x := Nat.mod_lt _ (by omega)
  refine ⟨⟨i / board.x, i % board.x⟩, by simp [BoggleBoard.Vertex_To_BoardPosition, hx], h1, h2,
    ?_, by simp [BoggleBoard.GetLetter, h1, h2]⟩
  simp only
  rw [Nat.mul_comm]
  exact Nat.div_add_mod i board.x

theorem C12_vertex_to_position_witness :
    ∃ p, (BoggleBoard.new 2 3).Vertex_To_BoardPosition 4 = some p ∧
      p.x < (BoggleBoard.new 2 3).getY ∧ p.y < (BoggleBoard.new 2 3).getX ∧
      p.x * (BoggleBoard.new 2 3).getX + p.y = 4 ∧
      (BoggleBoard.new 2 3).GetLetter p = some ((BoggleBoard.new 2 3).board p.x p.y) :=
  C12_vertex_to_position (BoggleBoard.new 2 3) 4 (by decide) (by decide) (by decide)

/-- C13: for a board file that `LoadBoard` accepts and every dictionary Trie, the adjacency table
is built, and from each cell `v` the call of `FindWords` that `GetSolutions` makes (with the
one-letter word of `v`) returns: a recursion depth of the cell count is never used up.  In every
call of `FindWords` reached from it through recursive calls, `currentWord` is at most
`rows * columns` characters long. -/
theorem C13_search_terminates (rows columns : Nat) (boardPath : Option (List Char))
    (dictionary : Trie) (hroot : dictionary.rootNode.isNull = false)
    (hB : ((BoggleBoard.new rows columns).LoadBoard boardPath).map Prod.fst = some true) :
    ∃ board adjMat, (BoggleBoard.new rows columns).LoadBoard boardPath = some (true, board) ∧
      AdjacencyMatrix.new board = some adjMat ∧ adjMat.Get_Vertices = rows * columns ∧
      ∀ v < rows * columns, ∃ currentLocation c,
        board.Vertex_To_BoardPosition v = some currentLocation ∧
        board.GetLetter currentLocation = some [c] ∧
        (∀ sol, ∃ res, BoggleSolver.FindWords adjMat.Get_Vertices board [c] v adjMat dictionary sol
          = some res) ∧
        (∀ currentWord lastVertex,
          Relation.ReflTransGen (RecursiveCall board adjMat dictionary) ([c], v)
            (currentWord, lastVertex) →
          currentWord.length ≤ rows * columns) := by
  cases hb : (BoggleBoard.new rows columns).LoadBoard boardPath with
  | none => rw [hb] at hB; simp at hB
  | some r =>
    obtain ⟨ok, board⟩ := r
    rw [hb] at hB
    simp only [Option.map_some', Option.some.injEq] at hB
    subst hB
    obtain ⟨hx, hy, hcells⟩ := BoggleBoard.LoadBoard_true rows columns boardPath board hb
    have hV : board.x * board.y = rows * columns := by rw [hx, hy, Nat.mul_comm]
    have ctx : SearchCtx board ⟨(List.range (board.x * board.y)).map (fun i =>
        (List.range (board.x * board.y)).map (fun j => AdjacencyMatrix.entryVal board i j)),
        board.x * board.y⟩ dictionary :=
      ⟨rfl, CheckAdjacent_table board, hcells, hroot⟩
    refine ⟨board, _, rfl, new_eq board, hV, fun v hv => ?_⟩
    rw [← hV] at hv
    obtain ⟨hcell, halpha⟩ := board.cell_eq_letter v (hcells v hv)
    obtain ⟨hpos, hget⟩ := board.position_of_vertex v hv
    have hon : OnPath board [board.letter v] v :=
      ⟨[], by simpa using hv, by simp, by simp [BoggleBoard.spell, hcell], by simp⟩
    refine ⟨_, board.letter v, hpos, by rw [hget, hcell], fun sol => ?_, fun cw lv hreach => ?_⟩
    · obtain ⟨res, hres, _⟩ := FindWords_post ctx (board.x * board.y) [board.letter v] v sol hon
        (by simp)
      exact ⟨res, hres⟩
    · have := OnPath_of_reachable ctx ([board.letter v], v) (cw, lv) hon hreach
      rw [← hV]
      exact (OnPath.facts ctx this).2.2

theorem C13_search_terminates_witness :
    ((Trie.new.AddWords ["cats".toList]).getD Trie.new).isSubstring "ca".toList = some true ∧
    ((BoggleBoard.new 2 2).LoadBoard (some "ca\nts\n".toList)).bind (fun r =>
      (AdjacencyMatrix.new r.2).bind (fun m =>
        BoggleSolver.FindWords 1 r.2 ['c'] 0 m
          ((Trie.new.AddWords ["cats".toList]).getD Trie.new) ∅)) = none ∧
    ∃ board adjMat, (BoggleBoard.new 2 2).LoadBoard (some "ca\nts\n".toList) = some (true, board) ∧
      AdjacencyMatrix.new board = some adjMat ∧ adjMat.Get_Vertices = 2 * 2 ∧
      ∀ v < 2 * 2, ∃ currentLocation c,
        board.Vertex_To_BoardPosition v = some currentLocation ∧
        board.GetLetter currentLocation = some [c] ∧
        (∀ sol, ∃ res, BoggleSolver.FindWords adjMat.Get_Vertices board [c] v adjMat
          ((Trie.new.AddWords ["cats".toList]).getD Trie.new) sol = some res) ∧
        (∀ currentWord lastVertex,
          Relation.ReflTransGen (RecursiveCall board adjMat
            ((Trie.new.AddWords ["cats".toList]).getD Trie.new)) ([c], v)
            (currentWord, lastVertex) →
          currentWord.length ≤ 2 * 2) :=
  ⟨by decide, by decide,
    C13_search_terminates 2 2 (some "ca\nts\n".toList)
      ((Trie.new.AddWords ["cats".toList]).getD Trie.new) (by decide) (by decide)⟩

/-- C14: for a fresh solver, every board file and every dictionary file that cannot be opened or
whose lines are letter-only, `GetSolutions` returns a set and no string of it contains the same
character twice.  On the 1x2 board `aa` with the dictionary word `aa` the result is empty: the
second cell is skipped because its letter `a` is already in the word, though the cell is
unvisited. -/
theorem C14_no_repeated_character (rows columns : Nat)
    (dictionaryPath boardPath : Option (List Char))
    (hdict : ∀ text, dictionaryPath = some text →
      ∀ w ∈ fileLines text, ∀ c ∈ w, isalpha c = true) :
    (∃ res, BoggleSolver.new.GetSolutions rows columns dictionaryPath boardPath = some res ∧
      ∀ w ∈ res, w.Nodup) ∧
    BoggleSolver.new.GetSolutions 1 2 (some "aa\n".toList) (some "aa\n".toList) = some ∅ := by
  constructor
  · obtain ⟨res, hres, _, hnd⟩ := GetSolutions_total BoggleSolver.new rows columns dictionaryPath
      boardPath hdict
    refine ⟨res, hres, fun w hw => ?_⟩
    rcases hnd w hw with h | h
    · simp [BoggleSolver.new] at h
    · exact h
  · apply eq_some_of_map_decide
    unfold BoggleSolver.GetSolutions
    rw [LoadDictionary_fileLines]
    decide

theorem C14_no_repeated_character_witness :
    (∃ res, BoggleSolver.new.GetSolutions 2 2 (some "cat\ncats\nat\nas\n".toList)
        (some "ca\nts\n".toList) = some res ∧ ∀ w ∈ res, w.Nodup) ∧
    BoggleSolver.new.GetSolutions 1 2 (some "aa\n".toList) (some "aa\n".toList) = some ∅ :=
  C14_no_repeated_character 2 2 (some "cat\ncats\nat\nas\n".toList) (some "ca\nts\n".toList)
    (by
      intro text h
      cases h
      decide)

/-- C15: for every sequence of lines that are ASCII-letter words or empty, inserted with `Addword`
into a fresh Trie, the insertions succeed and `FindWord("")` returns false; `Addword("")` on any
Trie returns the Trie unchanged. -/
theorem C15_empty_string_never_word (words : List (List Char))
    (hws : ∀ w ∈ words, ∀ c ∈ w, isalpha c = true) :
    (∃ t, Trie.new.AddWords words = some t ∧ t.FindWord [] = some false) ∧
      ∀ t : Trie, t.Addword [] = some t := by
  constructor
  · obtain ⟨t, ht, hroot, hnull⟩ := AddWords_new words hws
    refine ⟨t, ht, ?_⟩
    rw [FindWord_eq t hnull [] (by simp), hroot]
    simp only [keys, List.map_nil, walk_nil]
    rw [wordAt_root_insAll words _ new_isNull]
    rfl
  · intro t
    rfl

theorem C15_empty_string_never_word_witness :
    (∃ t, Trie.new.AddWords ["cat".toList, [], "At".toList, []] = some t ∧
        t.FindWord [] = some false) ∧
      ∀ t : Trie, t.Addword [] = some t :=
  C15_empty_string_never_word ["cat".toList, [], "At".toList, []] (by decide)

/-- C16 (defect): for the line `a1`, `GetAlphabeticalIndex` gives the digit `1` the index -48 and
`Addword` reads the child table there; for the line `0` the index is 26.  Both lie outside the
26-entry table `children[0..25]`, so the run of `Addword` leaves defined behaviour. -/
theorem C16_index_outside_child_table :
    GetAlphabeticalIndex (tolower '1') = -48 ∧
    (Trie.new.rootNode.getChild (GetAlphabeticalIndex (tolower '1'))).isNone = true ∧
    (Trie.new.Addword "a1".toList).isNone = true ∧
    GetAlphabeticalIndex (tolower '0') = 26 ∧
    (Trie.new.rootNode.getChild (GetAlphabeticalIndex (tolower '0'))).isNone = true ∧
    (Trie.new.Addword "0".toList).isNone = true ∧
    (Trie.new.Addword "cat\r".toList).isNone = true := by
  decide

/-- C17 (defect): the board file with the one line `a b`, loaded with 1 row and 3 columns, is
accepted although the line has only 2 characters once its whitespace is stripped: `remove_if`
leaves the string 3 characters long (`abb`), and the row is stored as `a`, `b`, `b`. -/
theorem C17_short_line_accepted :
    remove_if isspace "a b".toList = "abb".toList ∧
    ("a b".toList.filter (fun c => !isspace c)).length = 2 ∧
    ((BoggleBoard.new 1 3).LoadBoard (some "a b\n".toList)).map
      (fun r => (r.1, r.2.board 0 0, r.2.board 0 1, r.2.board 0 2))
      = some (true, ['a'], ['b'], ['b']) := by
  decide

/-- C18: for a board file that `LoadBoard` accepts, a dictionary file whose lines are ASCII-letter
words, and a string `w` for which `FindWord(w)` is true on the loaded Trie, that holds no character
twice and that is spelled by a non-empty sequence of cells of the loaded board in which
consecutive cells are adjacent, `GetSolutions` on a fresh solver returns a set that has `w` as a
member. -/
theorem C18_complete_for_marked_words (rows columns : Nat) (dictText : List Char)
    (w : List Char) (boardPath : Option (List Char)) (path : List Nat)
    (hws : ∀ v ∈ fileLines dictText, ∀ c ∈ v, isalpha c = true)
    (hfind : (Trie.new.AddWords (fileLines dictText)).bind (fun t => t.FindWord w) = some true)
    (hB : ((BoggleBoard.new rows columns).LoadBoard boardPath).map
      (fun r => (r.1, path.flatMap (fun v => r.2.board (v / columns) (v % columns))))
      = some (true, w))
    (hne : path ≠ []) (hlt : ∀ v ∈ path, v < rows * columns)
    (hadj : List.Chain' (fun a b => a ≠ b ∧
      |((a / columns : Nat) : Int) - ((b / columns : Nat) : Int)| ≤ 1 ∧
      |((a % columns : Nat) : Int) - ((b % columns : Nat) : Int)| ≤ 1) path)
    (hnd : w.Nodup) :
    ∃ res, BoggleSolver.new.GetSolutions rows columns (some dictText) boardPath = some res ∧
      w ∈ res := by
  cases hb : (BoggleBoard.new rows columns).LoadBoard boardPath with
  | none => rw [hb] at hB; simp at hB
  | some r =>
    obtain ⟨ok, board⟩ := r
    rw [hb] at hB
    simp only [Option.map_some', Option.some.injEq, Prod.mk.injEq] at hB
    obtain ⟨hok, hsp⟩ := hB
    subst hok
    obtain ⟨hx, hy, hcells⟩ := BoggleBoard.LoadBoard_true rows columns boardPath board hb
    obtain ⟨res, hres, _, _, hcomp⟩ := GetSolutions_post BoggleSolver.new rows columns dictText
      (fileLines dictText) rfl hws boardPath board hb
    refine ⟨res, hres, ?_⟩
    have hlt2 : ∀ v ∈ path, v < board.x * board.y := by
      intro v hv
      rw [hx, hy, Nat.mul_comm]; exact hlt v hv
    have hsp2 : w = board.spell path := by
      rw [← hsp, ← hx]; rfl
    have hwa : ∀ c ∈ w, isalpha c = true := by
      rw [hsp2]; exact board.spell_isalpha path (fun v hv => hcells v (hlt2 v hv))
    have hword : wordAt (walk (insAll (fileLines dictText) Trie.new.rootNode) (keys w)) = true := by
      obtain ⟨t, ht, hroot, hnull⟩ := AddWords_new (fileLines dictText) hws
      rw [ht, Option.some_bind, FindWord_eq t hnull w hwa, hroot] at hfind
      exact Option.some.inj hfind
    cases path with
    | nil => exact absurd rfl hne
    | cons v ext =>
      apply hcomp v (List.mem_range.2 (hlt2 v (by simp))) w
      refine ⟨ext, hlt2, ?_, hsp2, hnd, hword⟩
      refine List.Chain'.imp ?_ hadj
      intro a b hab
      apply (entryVal_eq_one board a b).2
      rw [hx]; exact hab

theorem C18_complete_for_marked_words_witness :
    ∃ res, BoggleSolver.new.GetSolutions 2 2 (some "cats\nat\n".toList)
      (some "ca\nts\n".toList) = some res ∧ "cats".toList ∈ res :=
  C18_complete_for_marked_words 2 2 "cats\nat\n".toList "cats".toList (some "ca\nts\n".toList)
    [0, 1, 2, 3] (by decide) (by decide) (by decide) (by decide) (by decide)
    (by simp only [List.chain'_cons, List.chain'_singleton, and_true]; decide) (by decide)

/-- C19: for a Trie built from a fresh Trie by `Addword` calls on words of ASCII letters, a word
`w` of ASCII letters and a query `s` of ASCII letters, `Addword(w)` succeeds, `FindWord(s)` and
`isSubstring(s)` answer before and after it, and an answer that is true before is true after. -/
theorem C19_insertion_monotone (words : List (List Char)) (w s : List Char)
    (hws : ∀ v ∈ words, ∀ c ∈ v, isalpha c = true) (hw : ∀ c ∈ w, isalpha c = true)
    (hs : ∀ c ∈ s, isalpha c = true) :
    ∃ t t1 f f1 p p1, Trie.new.AddWords words = some t ∧ t.Addword w = some t1 ∧
      t.FindWord s = some f ∧ t1.FindWord s = some f1 ∧ (f = true → f1 = true) ∧
      t.isSubstring s = some p ∧ t1.isSubstring s = some p1 ∧ (p = true → p1 = true) := by
  obtain ⟨t, ht, hroot, hnull⟩ := AddWords_new words hws
  have h1null := insPath_isNull w _ hnull
  refine ⟨t, ⟨insPath w t.rootNode⟩, _, _, _, _, ht, Addword_eq t hnull w hw,
    FindWord_eq t hnull s hs, FindWord_eq _ h1null s hs, ?_,
    isSubstring_eq t hnull s hs, isSubstring_eq _ h1null s hs, ?_⟩
  · exact fun h => (wordAt_insPath w _ hnull _).2 (Or.inl h)
  · exact anyChild_insPath_mono w _ hnull _

theorem C19_insertion_monotone_witness :
    ∃ t t1 f f1 p p1, Trie.new.AddWords ["cat".toList, "do".toList] = some t ∧
      t.Addword "dog".toList = some t1 ∧
      t.FindWord "do".toList = some f ∧ t1.FindWord "do".toList = some f1 ∧
      (f = true → f1 = true) ∧
      t.isSubstring "do".toList = some p ∧ t1.isSubstring "do".toList = some p1 ∧
      (p = true → p1 = true) :=
  C19_insertion_monotone ["cat".toList, "do".toList] "dog".toList "do".toList
    (by decide) (by decide) (by decide)

/-- C20: for every solver state and every call of `GetSolutions` whose dictionary file cannot be
opened or has letter-only lines (whether the board loads or not), the call returns a set that
contains every string of `SolutionWords` from before the call; a second call on the solver, whose
`SolutionWords` is then the first result, returns a superset of the first result. -/
theorem C20_results_accumulate (self : BoggleSolver) (rows columns rows2 columns2 : Nat)
    (dictionaryPath boardPath dictionaryPath2 boardPath2 : Option (List Char))
    (hdict : ∀ text, dictionaryPath = some text →
      ∀ w ∈ fileLines text, ∀ c ∈ w, isalpha c = true)
    (hdict2 : ∀ text, dictionaryPath2 = some text →
      ∀ w ∈ fileLines text, ∀ c ∈ w, isalpha c = true) :
    ∃ res res2, self.GetSolutions rows columns dictionaryPath boardPath = some res ∧
      self.SolutionWords ⊆ res ∧
      (BoggleSolver.mk res).GetSolutions rows2 columns2 dictionaryPath2 boardPath2 = some res2 ∧
      res ⊆ res2 := by
  obtain ⟨res, hres, hsub, _⟩ := GetSolutions_total self rows columns dictionaryPath boardPath hdict
  obtain ⟨res2, hres2, hsub2, _⟩ := GetSolutions_total (BoggleSolver.mk res) rows2 columns2
    dictionaryPath2 boardPath2 hdict2
  exact ⟨res, res2, hres, hsub, hres2, hsub2⟩

theorem C20_results_accumulate_witness :
    ∃ res res2, (BoggleSolver.mk {"old".toList}).GetSolutions 2 2
        (some "cat\ncats\nat\nas\n".toList) (some "ca\nts\n".toList) = some res ∧
      (BoggleSolver.mk {"old".toList}).SolutionWords ⊆ res ∧
      (BoggleSolver.mk res).GetSolutions 1 1 none (some "a\n".toList) = some res2 ∧
      res ⊆ res2 :=
  C20_results_accumulate (BoggleSolver.mk {"old".toList}) 2 2 1 1
    (some "cat\ncats\nat\nas\n".toList) (some "ca\nts\n".toList) none (some "a\n".toList)
    (by
      intro text h
      cases h
      decide)
    (by
      intro text h
      cases h)

end Boggle
